import Mathlib

/-!
Verification development for the STAP-liver label-assignment engine.

The repository's solver operates on numpy float arrays.  We embed the float
value domain as an explicit extended type `EF α` (finite value, +inf, -inf,
NaN) over an exact carrier (`ℚ` for the graph-building arithmetic, `ℝ` once
irrational square roots appear), with the IEEE-754 special-value rules the
code relies on (inf - inf = NaN, inf / inf = NaN, 0 * inf = NaN, every
comparison against NaN false).  Rounding is never relevant to the properties
proved here, so finite arithmetic is exact.
-/

namespace STAP

/-- Extended float: the value domain of the numpy arrays used by the code.
`fin x` is an ordinary finite value, `pinf`/`ninf` are the infinities
(`math.inf` sentinels), `nan` is IEEE NaN. -/
inductive EF (α : Type) : Type
  | nan : EF α
  | pinf : EF α
  | ninf : EF α
  | fin : α → EF α
deriving DecidableEq

namespace EF

variable {α : Type} [LinearOrderedField α]

/-- IEEE addition on extended floats. -/
def add : EF α → EF α → EF α
  | nan, _ => nan
  | _, nan => nan
  | pinf, ninf => nan
  | ninf, pinf => nan
  | pinf, _ => pinf
  | _, pinf => pinf
  | ninf, _ => ninf
  | _, ninf => ninf
  | fin a, fin b => fin (a + b)

/-- IEEE subtraction on extended floats (`inf - inf = NaN`). -/
def sub : EF α → EF α → EF α
  | nan, _ => nan
  | _, nan => nan
  | pinf, pinf => nan
  | ninf, ninf => nan
  | pinf, _ => pinf
  | ninf, _ => ninf
  | fin _, pinf => ninf
  | fin _, ninf => pinf
  | fin a, fin b => fin (a - b)

/-- Multiplication by a rational scalar (a weight): `0 * inf = NaN`.
The scalar is an exact rational, so the sign tests are decidable even when
the carrier is `ℝ`. -/
def smulQ (q : ℚ) : EF α → EF α
  | nan => nan
  | pinf => if q = 0 then nan else if 0 < q then pinf else ninf
  | ninf => if q = 0 then nan else if 0 < q then ninf else pinf
  | fin x => fin ((q : α) * x)

/-- IEEE squaring. -/
def sq : EF α → EF α
  | nan => nan
  | pinf => pinf
  | ninf => pinf
  | fin x => fin (x * x)

/-- IEEE absolute value. -/
def abs : EF α → EF α
  | nan => nan
  | pinf => pinf
  | ninf => pinf
  | fin x => fin |x|

/-- IEEE division on extended floats (`inf / inf = NaN`, `x / 0 = ±inf`,
`0 / 0 = NaN`, `x / inf = 0`). -/
def div [DecidableEq α] [∀ x y : α, Decidable (x < y)] : EF α → EF α → EF α
  | nan, _ => nan
  | _, nan => nan
  | pinf, pinf => nan
  | pinf, ninf => nan
  | ninf, pinf => nan
  | ninf, ninf => nan
  | pinf, fin y => if y < 0 then ninf else pinf
  | ninf, fin y => if y < 0 then pinf else ninf
  | fin _, pinf => fin 0
  | fin _, ninf => fin 0
  | fin x, fin y =>
      if y = 0 then (if x = 0 then nan else if 0 < x then pinf else ninf)
      else fin (x / y)

/-- Strict IEEE comparison: every comparison involving NaN is false. -/
def lt : EF α → EF α → Prop
  | nan, _ => False
  | _, nan => False
  | pinf, _ => False
  | _, pinf => True
  | ninf, ninf => False
  | ninf, _ => True
  | fin _, ninf => False
  | fin x, fin y => x < y

instance instDecLt [∀ x y : α, Decidable (x < y)] :
    ∀ a b : EF α, Decidable (lt a b)
  | nan, b => by cases b <;> exact isFalse (by simp [lt])
  | pinf, b => by cases b <;> simp only [lt] <;> infer_instance
  | ninf, b => by cases b <;> simp only [lt] <;> infer_instance
  | fin x, b => by cases b <;> simp only [lt] <;> infer_instance

/-- Structural test: is this value NaN? -/
def isNan : EF α → Bool
  | nan => true
  | _ => false

/-- Structural test: is this value finite? -/
def isFin : EF α → Bool
  | fin _ => true
  | _ => false

/-- Structural test: is this value +inf? -/
def isPinf : EF α → Bool
  | pinf => true
  | _ => false

/-- numpy-style sum of a list of floats (NaN absorbing, starts at 0). -/
def lsum : List (EF α) → EF α :=
  fun l => l.foldr add (fin 0)

/-- numpy-style mean: sum divided by length (mean of `[]` is NaN via 0/0). -/
def lmean [DecidableEq α] [∀ x y : α, Decidable (x < y)] (l : List (EF α)) : EF α :=
  div (lsum l) (fin (l.length : α))

/-- Cast an extended rational to an extended real (exact). -/
def toR : EF ℚ → EF ℝ
  | nan => nan
  | pinf => pinf
  | ninf => ninf
  | fin q => fin (q : ℝ)

/-- IEEE square root on extended reals (`sqrt` of a negative is NaN). -/
noncomputable def sqrtR : EF ℝ → EF ℝ
  | nan => nan
  | pinf => pinf
  | ninf => nan
  | fin x => if x < 0 then nan else fin (Real.sqrt x)

end EF

section EFLemmas

variable {α : Type} [LinearOrderedField α]

theorem EF.add_nan_left (b : EF α) : EF.add EF.nan b = EF.nan := by
  cases b <;> rfl

theorem EF.add_nan_right (a : EF α) : EF.add a EF.nan = EF.nan := by
  cases a <;> rfl

theorem EF.sub_nan_left (b : EF α) : EF.sub EF.nan b = EF.nan := by
  cases b <;> rfl

theorem EF.sub_nan_right (a : EF α) : EF.sub a EF.nan = EF.nan := by
  cases a <;> rfl

theorem EF.smulQ_nan (q : ℚ) : EF.smulQ q (EF.nan : EF α) = EF.nan := rfl

theorem EF.div_nan_left [DecidableEq α] [∀ x y : α, Decidable (x < y)]
    (b : EF α) : EF.div EF.nan b = EF.nan := by
  cases b <;> rfl

theorem EF.div_nan_right [DecidableEq α] [∀ x y : α, Decidable (x < y)]
    (a : EF α) : EF.div a EF.nan = EF.nan := by
  cases a <;> rfl

theorem EF.not_lt_nan (a : EF α) : ¬ EF.lt a EF.nan := by
  cases a <;> simp [EF.lt]

theorem EF.lsum_nan_of_mem {l : List (EF α)} (h : EF.nan ∈ l) :
    EF.lsum l = EF.nan := by
  induction l with
  | nil => cases h
  | cons a t ih =>
      rcases List.mem_cons.mp h with h1 | h2
      · subst h1
        simp [EF.lsum, List.foldr, EF.add_nan_left]
      · simp only [EF.lsum, List.foldr] at *
        rw [ih h2, EF.add_nan_right]

theorem EF.lmean_nan_of_mem [DecidableEq α] [∀ x y : α, Decidable (x < y)]
    {l : List (EF α)} (h : EF.nan ∈ l) : EF.lmean l = EF.nan := by
  rw [EF.lmean, EF.lsum_nan_of_mem h, EF.div_nan_left]

end EFLemmas

/-! ## Cost model (src/spine_liver_functions.py, lines 111-135) -/

/-- Renormalized weight vector `np.array(weights)/sum(weights)`
(src/spine_liver_functions.py lines 115, 124, 133).  The weights are exact
rationals; every call site in the repository passes a tuple of integers. -/
def normalizeWeights (w : List ℚ) : List ℚ :=
  w.map (fun x => x / w.sum)

/-- Elementwise weighted difference `weights * (row1 - row2)`: numpy
broadcasts the weight vector over each attribute row. -/
noncomputable def weightedDiff (wn : List ℚ) (r1 r2 : List (EF ℝ)) : List (EF ℝ) :=
  List.zipWith EF.smulQ wn (List.zipWith EF.sub r1 r2)

/-- Row-wise Euclidean norm `np.linalg.norm(·, axis=-1)`: square root of the
sum of squares of one row. -/
noncomputable def rowNorm (r : List (EF ℝ)) : EF ℝ :=
  EF.sqrtR (EF.lsum (r.map EF.sq))

/-- `compute_vertex_cost(vertices1, vertices2, weights)`
(src/spine_liver_functions.py lines 120-126): renormalize the weights, then
take the rowwise norm of the weighted difference of the two vertex matrices. -/
noncomputable def compute_vertex_cost (vertices1 vertices2 : List (List (EF ℝ)))
    (weights : List ℚ) : List (EF ℝ) :=
  List.zipWith (fun a b => rowNorm (weightedDiff (normalizeWeights weights) a b))
    vertices1 vertices2

/-- `compute_initial_vertex_cost(vertices1, vertices2, weights)`
(src/spine_liver_functions.py lines 111-117): identical to
`compute_vertex_cost` except the last column (size) of both matrices is
dropped (`vertices[:, :-1]`) before the weighted difference. -/
noncomputable def compute_initial_vertex_cost (vertices1 vertices2 : List (List (EF ℝ)))
    (weights : List ℚ) : List (EF ℝ) :=
  List.zipWith
    (fun a b => rowNorm (weightedDiff (normalizeWeights weights) a.dropLast b.dropLast))
    vertices1 vertices2

/-- `compute_edge_cost(edges1, edges2, weights)`
(src/spine_liver_functions.py lines 129-135): same weighted-norm formula over
the relational (edge) attribute rows.  Call sites that omit `weights` use the
default `np.ones(5)`. -/
noncomputable def compute_edge_cost (edges1 edges2 : List (List (EF ℝ)))
    (weights : List ℚ) : List (EF ℝ) :=
  List.zipWith (fun a b => rowNorm (weightedDiff (normalizeWeights weights) a b))
    edges1 edges2

/-- A fully finite attribute row, as the extended-float image of exact
rational attribute values. -/
def finRow (a : List ℚ) : List (EF ℝ) :=
  a.map (fun q : ℚ => EF.fin (q : ℝ))

/-- The specification's weighted-distance formula, written from the spec
text: renormalize `w` so it sums to 1, then return the Euclidean norm of the
elementwise product of the renormalized weights with the difference vector
`a - b` (weights scale the difference before the norm). -/
noncomputable def specWeightedDistance (w a b : List ℚ) : ℝ :=
  Real.sqrt (((List.zipWith (fun wi di => wi * di)
      ((w.map (fun x => x / w.sum)).map (fun q => (q : ℝ)))
      (List.zipWith (fun x y => (x : ℝ) - (y : ℝ)) a b)).map (fun t => t ^ 2)).sum)

section CostLemmas

theorem sum_map_div (w : List ℚ) (s : ℚ) :
    (w.map (fun x => x / s)).sum = w.sum / s := by
  induction w with
  | nil => simp
  | cons a t ih => simp [ih, add_div]

theorem zipWith_sub_finRow (a b : List ℚ) :
    List.zipWith EF.sub (finRow a) (finRow b)
      = (List.zipWith (fun x y => (x : ℝ) - (y : ℝ)) a b).map EF.fin := by
  induction a generalizing b with
  | nil => cases b <;> rfl
  | cons x t ih =>
      cases b with
      | nil => rfl
      | cons y u =>
          show EF.sub (EF.fin (x : ℝ)) (EF.fin (y : ℝ)) :: List.zipWith EF.sub (finRow t) (finRow u)
            = EF.fin ((x : ℝ) - (y : ℝ))
              :: (List.zipWith (fun p q => (p : ℝ) - (q : ℝ)) t u).map EF.fin
          rw [ih u]
          rfl

theorem zipWith_smulQ_fin (wn : List ℚ) (l : List ℝ) :
    List.zipWith EF.smulQ wn (l.map EF.fin)
      = (List.zipWith (fun q x => (q : ℝ) * x) wn l).map EF.fin := by
  induction wn generalizing l with
  | nil => simp
  | cons q t ih =>
      cases l with
      | nil => simp
      | cons x u => simp [EF.smulQ, ih]

theorem map_sq_fin (l : List ℝ) :
    (l.map EF.fin).map EF.sq = (l.map (fun x => x * x)).map EF.fin := by
  induction l with
  | nil => rfl
  | cons x t ih => simp [EF.sq, ih]

theorem lsum_map_fin {α : Type} [LinearOrderedField α] (l : List α) :
    EF.lsum (l.map EF.fin) = EF.fin l.sum := by
  induction l with
  | nil => simp [EF.lsum]
  | cons x t ih => simp [EF.lsum, List.foldr] at *; rw [ih]; rfl

theorem sum_map_mul_self_nonneg (l : List ℝ) :
    0 ≤ (l.map (fun x => x * x)).sum := by
  induction l with
  | nil => simp
  | cons x t ih =>
      simp only [List.map_cons, List.sum_cons]
      exact add_nonneg (mul_self_nonneg x) ih

theorem sqrtR_fin_of_nonneg {x : ℝ} (h : 0 ≤ x) :
    EF.sqrtR (EF.fin x) = EF.fin (Real.sqrt x) := by
  simp [EF.sqrtR, not_lt.mpr h]

theorem rowNorm_weightedDiff_finRow (wn a b : List ℚ) :
    rowNorm (weightedDiff wn (finRow a) (finRow b))
      = EF.fin (Real.sqrt (((List.zipWith (fun q x => (q : ℝ) * x) wn
          (List.zipWith (fun x y => (x : ℝ) - (y : ℝ)) a b)).map
            (fun x => x * x)).sum)) := by
  rw [rowNorm, weightedDiff, zipWith_sub_finRow, zipWith_smulQ_fin, map_sq_fin,
    lsum_map_fin, sqrtR_fin_of_nonneg (sum_map_mul_self_nonneg _)]

theorem dropLast_map {β γ : Type} (f : β → γ) (l : List β) :
    (l.map f).dropLast = l.dropLast.map f := by
  induction l with
  | nil => rfl
  | cons x t ih =>
      cases t with
      | nil => rfl
      | cons y u =>
          simp only [List.map_cons, List.dropLast_cons₂] at *
          rw [ih]

theorem dropLast_finRow (c : List ℚ) :
    (finRow c).dropLast = finRow c.dropLast := by
  simp only [finRow]
  exact dropLast_map (fun q : ℚ => EF.fin (q : ℝ)) c

theorem specWeightedDistance_eq (w a b : List ℚ) :
    specWeightedDistance w a b
      = Real.sqrt (((List.zipWith (fun q x => (q : ℝ) * x) (normalizeWeights w)
          (List.zipWith (fun x y => (x : ℝ) - (y : ℝ)) a b)).map
            (fun x => x * x)).sum) := by
  rw [specWeightedDistance, normalizeWeights, List.zipWith_map_left]
  congr 1
  refine congrArg List.sum (congrArg₂ List.map ?_ rfl)
  funext t
  exact pow_two t

end CostLemmas

/-- C4: every cost function renormalizes its weight vector to sum 1 and
returns the Euclidean norm of the weighted difference, with the weights
applied to the difference before the norm; `compute_vertex_cost` and
`compute_edge_cost` apply this over all attribute dimensions and
`compute_initial_vertex_cost` over all dimensions except the last (size).
The renormalization hypothesis `sum w ≠ 0` is the presupposition of
"renormalizes to sum 1" (all call sites pass positive integer weights). -/
theorem C4_cost_formula (w wi a b : List ℚ) (hw : w.sum ≠ 0) (hwi : wi.sum ≠ 0) :
    (normalizeWeights w).sum = 1 ∧
    (normalizeWeights wi).sum = 1 ∧
    compute_vertex_cost [finRow a] [finRow b] w
      = [EF.fin (specWeightedDistance w a b)] ∧
    compute_edge_cost [finRow a] [finRow b] w
      = [EF.fin (specWeightedDistance w a b)] ∧
    compute_initial_vertex_cost [finRow a] [finRow b] wi
      = [EF.fin (specWeightedDistance wi a.dropLast b.dropLast)] := by
  refine ⟨?_, ?_, ?_, ?_, ?_⟩
  · rw [normalizeWeights, sum_map_div, div_self hw]
  · rw [normalizeWeights, sum_map_div, div_self hwi]
  · simp only [compute_vertex_cost, List.zipWith]
    rw [rowNorm_weightedDiff_finRow, specWeightedDistance_eq]
  · simp only [compute_edge_cost, List.zipWith]
    rw [rowNorm_weightedDiff_finRow, specWeightedDistance_eq]
  · simp only [compute_initial_vertex_cost, List.zipWith]
    rw [dropLast_finRow, dropLast_finRow, rowNorm_weightedDiff_finRow,
      specWeightedDistance_eq]

/-- Witness for C4 at the repository's own weight tuples
`vertex_weights = (1,1,1,7,1)` and `initial weights = (1,1,1,7)` on two
concrete finite attribute rows. -/
theorem C4_cost_formula_witness :
    ([1, 1, 1, 7, 1] : List ℚ).sum ≠ 0 ∧
    ([1, 1, 1, 7] : List ℚ).sum ≠ 0 ∧
    compute_vertex_cost [finRow [0, 1, 2, 3, 4]] [finRow [4, 3, 2, 1, 0]] [1, 1, 1, 7, 1]
      = [EF.fin (specWeightedDistance [1, 1, 1, 7, 1] [0, 1, 2, 3, 4] [4, 3, 2, 1, 0])] := by
  have h := C4_cost_formula [1, 1, 1, 7, 1] [1, 1, 1, 7]
    [0, 1, 2, 3, 4] [4, 3, 2, 1, 0] (by norm_num) (by norm_num)
  exact ⟨by norm_num, by norm_num, h.2.2.1⟩

/-! ## Volumes, labelmaps and graph construction
(src/spine_liver_functions.py, lines 26-81) -/

/-- One voxel of a volume-labelmap pair: its grid coordinates, its scalar
intensity from the volume and its integer label from the labelmap.  A volume
and a same-shaped labelmap are embedded together as the list of their voxels
in raster order; coordinates and intensities are exact rationals. -/
structure Voxel : Type where
  x : ℚ
  y : ℚ
  z : ℚ
  intensity : ℚ
  label : ℤ
deriving DecidableEq

/-- Insert an integer into a strictly sorted list, keeping it sorted and
duplicate-free. -/
def insertSortedDedup (a : ℤ) : List ℤ → List ℤ
  | [] => [a]
  | b :: t =>
      if a = b then b :: t
      else if a < b then a :: b :: t
      else b :: insertSortedDedup a t

/-- `np.unique`: the sorted list of distinct values. -/
def sortedDedup (l : List ℤ) : List ℤ :=
  l.foldr insertSortedDedup []

/-- The sorted distinct labels of a labelmap (`np.unique(labelmap)`). -/
def uniqueLabels (vs : List Voxel) : List ℤ :=
  sortedDedup (vs.map Voxel.label)

/-- The voxels carrying a given label. -/
def voxelsOf (vs : List Voxel) (ℓ : ℤ) : List Voxel :=
  vs.filter (fun v => v.label = ℓ)

/-- Voxel count of a label (`np.unique(..., return_counts=True)`). -/
def labelSize (vs : List Voxel) (ℓ : ℤ) : ℕ :=
  (voxelsOf vs ℓ).length

/-- Mean intensity of a label (`np.mean(volume.flatten()[indexes==i])`). -/
def labelIntensity (vs : List Voxel) (ℓ : ℤ) : ℚ :=
  ((voxelsOf vs ℓ).map Voxel.intensity).sum / (labelSize vs ℓ : ℚ)

/-- First centroid coordinate of a label (`scipy` center of mass with unit
weights: the mean voxel coordinate). -/
def labelCentroidX (vs : List Voxel) (ℓ : ℤ) : ℚ :=
  ((voxelsOf vs ℓ).map Voxel.x).sum / (labelSize vs ℓ : ℚ)

/-- Second centroid coordinate of a label. -/
def labelCentroidY (vs : List Voxel) (ℓ : ℤ) : ℚ :=
  ((voxelsOf vs ℓ).map Voxel.y).sum / (labelSize vs ℓ : ℚ)

/-- Third centroid coordinate of a label. -/
def labelCentroidZ (vs : List Voxel) (ℓ : ℤ) : ℚ :=
  ((voxelsOf vs ℓ).map Voxel.z).sum / (labelSize vs ℓ : ℚ)

/-- The five-attribute vertex row of a present label:
centroid (3 coordinates), mean intensity, voxel count. -/
def attrRow (vs : List Voxel) (ℓ : ℤ) : List (EF ℚ) :=
  [EF.fin (labelCentroidX vs ℓ), EF.fin (labelCentroidY vs ℓ),
   EF.fin (labelCentroidZ vs ℓ), EF.fin (labelIntensity vs ℓ),
   EF.fin ((labelSize vs ℓ : ℚ))]

/-- `compute_attributes(volume, labelmap, "centroid"/"intensity"/"size")`
assembled per present label, in `np.unique` order, as vertex rows
(src/spine_liver_functions.py lines 26-44 and 55). -/
def attrRows (vs : List Voxel) : List (List (EF ℚ)) :=
  (uniqueLabels vs).map (attrRow vs)

/-- The all-+infinity sentinel vertex row (`np.array([math.inf]*5)`). -/
def sentinelRow : List (EF ℚ) :=
  [EF.pinf, EF.pinf, EF.pinf, EF.pinf, EF.pinf]

/-- The vertex assembly loop of `build_graph` when `target_vertices` is
given (src/spine_liver_functions.py lines 57-65): iterate the labels
`0..target-1`; a label present in the labelmap takes the attribute row at
the running index `actual_index` (which then advances), an absent label
takes the sentinel row. -/
def buildVerticesGo (vs : List Voxel) : ℕ → ℕ → ℕ → List (List (EF ℚ))
  | _, 0, _ => []
  | ℓcur, rem + 1, ai =>
      if (ℓcur : ℤ) ∈ uniqueLabels vs then
        (attrRows vs).getD ai [] :: buildVerticesGo vs (ℓcur + 1) rem (ai + 1)
      else
        sentinelRow :: buildVerticesGo vs (ℓcur + 1) rem ai

/-- The vertex matrix of `build_graph` with a target vertex count. -/
def buildVerticesTarget (vs : List Voxel) (K : ℕ) : List (List (EF ℚ)) :=
  buildVerticesGo vs 0 K 0

/-- One relational (edge) attribute row for the ordered vertex pair:
relative position (3 coordinates), absolute intensity contrast, size ratio
(src/spine_liver_functions.py lines 70-78). -/
def edgeRow (vi vj : List (EF ℚ)) : List (EF ℚ) :=
  [EF.sub (vi.getD 0 EF.nan) (vj.getD 0 EF.nan),
   EF.sub (vi.getD 1 EF.nan) (vj.getD 1 EF.nan),
   EF.sub (vi.getD 2 EF.nan) (vj.getD 2 EF.nan),
   EF.abs (EF.sub (vi.getD 3 EF.nan) (vj.getD 3 EF.nan)),
   EF.div (vi.getD 4 EF.nan) (vj.getD 4 EF.nan)]

/-- The full relational tensor over all ordered vertex pairs, row `(i,j)`
stored at index `i * K + j` (the `np.repeat` / `np.vstack` assembly of
src/spine_liver_functions.py lines 74-78). -/
def buildEdges (vertices : List (List (EF ℚ))) : List (List (EF ℚ)) :=
  vertices.flatMap (fun vi => vertices.map (fun vj => edgeRow vi vj))

/-- A structural region graph: vertex matrix plus (possibly empty) edge
matrix.  The attribute-name lists carried by the Python `SRG` class are
presentation metadata and are not modelled. -/
structure SRG (α : Type) : Type where
  vertices : List (List (EF α))
  edges : List (List (EF α))

/-- `build_graph(volume, labelmap, add_edges, target_vertices)`
(src/spine_liver_functions.py lines 46-81). -/
def build_graph (vs : List Voxel) (add_edges : Bool) (target_vertices : Option ℕ) :
    SRG ℚ :=
  let vertices :=
    match target_vertices with
    | none => attrRows vs
    | some K => buildVerticesTarget vs K
  if add_edges then ⟨vertices, buildEdges vertices⟩ else ⟨vertices, []⟩

section SortedDedupLemmas

theorem mem_insertSortedDedup (a b : ℤ) (l : List ℤ) :
    b ∈ insertSortedDedup a l ↔ b = a ∨ b ∈ l := by
  induction l with
  | nil => simp [insertSortedDedup]
  | cons c t ih =>
      by_cases h1 : a = c
      · subst h1
        simp only [insertSortedDedup, if_pos rfl]
        constructor
        · intro h
          exact Or.inr h
        · rintro (h | h)
          · simp [h]
          · exact h
      · by_cases h2 : a < c
        · simp only [insertSortedDedup, if_neg h1, if_pos h2, List.mem_cons]
        · simp only [insertSortedDedup, if_neg h1, if_neg h2, List.mem_cons, ih]
          tauto

theorem sorted_insertSortedDedup (a : ℤ) (l : List ℤ)
    (h : l.Sorted (· < ·)) : (insertSortedDedup a l).Sorted (· < ·) := by
  induction l with
  | nil => simp [insertSortedDedup]
  | cons c t ih =>
      have hc : ∀ b ∈ t, c < b := fun b hb => (List.sorted_cons.mp h).1 b hb
      have ht : t.Sorted (· < ·) := (List.sorted_cons.mp h).2
      by_cases h1 : a = c
      · subst h1
        simpa [insertSortedDedup] using h
      · by_cases h2 : a < c
        · simp only [insertSortedDedup, if_neg h1, if_pos h2]
          refine List.sorted_cons.mpr ⟨?_, h⟩
          intro b hb
          rcases List.mem_cons.mp hb with rfl | hb
          · exact h2
          · exact lt_trans h2 (hc b hb)
        · have hac : c < a := by
            rcases lt_trichotomy a c with h3 | h3 | h3
            · exact absurd h3 h2
            · exact absurd h3 h1
            · exact h3
          simp only [insertSortedDedup, if_neg h1, if_neg h2]
          refine List.sorted_cons.mpr ⟨?_, ih ht⟩
          intro b hb
          rcases (mem_insertSortedDedup a b t).mp hb with rfl | hb
          · exact hac
          · exact hc b hb

theorem mem_sortedDedup (l : List ℤ) (b : ℤ) :
    b ∈ sortedDedup l ↔ b ∈ l := by
  induction l with
  | nil => simp [sortedDedup]
  | cons c t ih =>
      simp only [sortedDedup, List.foldr] at *
      rw [mem_insertSortedDedup, ih, List.mem_cons]

theorem sorted_sortedDedup (l : List ℤ) : (sortedDedup l).Sorted (· < ·) := by
  induction l with
  | nil => simp [sortedDedup]
  | cons c t ih => exact sorted_insertSortedDedup c _ ih

theorem mem_uniqueLabels (vs : List Voxel) (ℓ : ℤ) :
    ℓ ∈ uniqueLabels vs ↔ ℓ ∈ vs.map Voxel.label :=
  mem_sortedDedup _ _

end SortedDedupLemmas

section BuildGraphLemmas

theorem sorted_getD_countP (l : List ℤ) (hs : l.Sorted (· < ·)) (ℓ : ℤ)
    (hm : ℓ ∈ l) : l.getD (l.countP (fun t => decide (t < ℓ))) 0 = ℓ := by
  induction l with
  | nil => cases hm
  | cons a t ih =>
      have ha : ∀ b ∈ t, a < b := fun b hb => (List.sorted_cons.mp hs).1 b hb
      have ht : t.Sorted (· < ·) := (List.sorted_cons.mp hs).2
      rcases List.mem_cons.mp hm with rfl | hmt
      · have h0 : t.countP (fun t => decide (t < ℓ)) = 0 := by
          rw [List.countP_eq_zero]
          intro b hb
          simpa using not_lt.mpr (le_of_lt (ha b hb))
        rw [List.countP_cons_of_neg _ _ (by simp), h0]
        rfl
      · have haℓ : a < ℓ := ha ℓ hmt
        rw [List.countP_cons_of_pos _ _ (by simpa using haℓ), List.getD_cons_succ]
        exact ih ht hmt

theorem countP_lt_add_one (l : List ℤ) (hn : l.Nodup) (ℓ : ℤ) :
    l.countP (fun t => decide (t < ℓ + 1))
      = l.countP (fun t => decide (t < ℓ)) + (if ℓ ∈ l then 1 else 0) := by
  induction l with
  | nil => simp
  | cons a t ih =>
      have hat : a ∉ t := (List.nodup_cons.mp hn).1
      have htn : t.Nodup := (List.nodup_cons.mp hn).2
      by_cases haℓ : a = ℓ
      · subst haℓ
        have h1 : t.countP (fun t => decide (t < a + 1))
            = t.countP (fun t => decide (t < a)) := by
          apply List.countP_congr
          intro b hb
          have hba : b ≠ a := fun h => hat (h ▸ hb)
          constructor
          · intro h
            have : b ≤ a := Int.lt_add_one_iff.mp (by simpa using h)
            exact decide_eq_true (lt_of_le_of_ne this hba)
          · intro h
            exact decide_eq_true (Int.lt_add_one_iff.mpr (le_of_lt (of_decide_eq_true h)))
        rw [List.countP_cons_of_pos _ _ (by simp [Int.lt_add_one_iff]),
          List.countP_cons_of_neg _ _ (by simp), h1, if_pos (List.mem_cons_self a t)]
      · have hmem : ℓ ∈ a :: t ↔ ℓ ∈ t := by
          simp only [List.mem_cons]
          constructor
          · rintro (rfl | h)
            · exact absurd rfl haℓ
            · exact h
          · exact Or.inr
        by_cases hlt : a < ℓ
        · rw [List.countP_cons_of_pos _ _ (by simpa using lt_trans hlt (lt_add_one ℓ)),
            List.countP_cons_of_pos _ _ (by simpa using hlt), ih htn]
          simp only [hmem]
          omega
        · have h2 : ¬ a < ℓ + 1 := by
            intro h
            exact haℓ (le_antisymm (Int.lt_add_one_iff.mp h) (not_lt.mp hlt))
          rw [List.countP_cons_of_neg _ _ (by simpa using h2),
            List.countP_cons_of_neg _ _ (by simpa using hlt), ih htn]
          simp only [hmem]

theorem countP_lt_length_of_mem (l : List ℤ) (ℓ : ℤ) (hm : ℓ ∈ l) :
    l.countP (fun t => decide (t < ℓ)) < l.length := by
  by_contra h
  have hle : l.length ≤ l.countP (fun t => decide (t < ℓ)) := not_lt.mp h
  have heq := le_antisymm (List.countP_le_length _) hle
  have hall := List.countP_eq_length.mp heq
  have := hall ℓ hm
  simp at this

theorem attrRows_getD_countP (vs : List Voxel) (ℓ : ℤ)
    (hm : ℓ ∈ uniqueLabels vs) :
    (attrRows vs).getD ((uniqueLabels vs).countP (fun t => decide (t < ℓ))) []
      = attrRow vs ℓ := by
  have hlen := countP_lt_length_of_mem (uniqueLabels vs) ℓ hm
  have hget := sorted_getD_countP (uniqueLabels vs) (sorted_sortedDedup _) ℓ hm
  rw [attrRows, List.getD_eq_getElem?_getD, List.getElem?_map]
  rw [List.getD_eq_getElem?_getD, List.getElem?_eq_getElem hlen] at hget
  simp only [Option.getD_some] at hget
  rw [List.getElem?_eq_getElem hlen]
  simp [hget]

theorem buildVerticesGo_length (vs : List Voxel) :
    ∀ rem ℓcur ai, (buildVerticesGo vs ℓcur rem ai).length = rem := by
  intro rem
  induction rem with
  | zero => intro ℓcur ai; rfl
  | succ n ih =>
      intro ℓcur ai
      by_cases h : (ℓcur : ℤ) ∈ uniqueLabels vs
      · simp [buildVerticesGo, if_pos h, ih]
      · simp [buildVerticesGo, if_neg h, ih]

theorem buildVerticesGo_spec (vs : List Voxel) :
    ∀ rem ℓcur j, j < rem →
      (buildVerticesGo vs ℓcur rem
          ((uniqueLabels vs).countP (fun t => decide (t < (ℓcur : ℤ))))).getD j []
        = if ((ℓcur + j : ℕ) : ℤ) ∈ uniqueLabels vs then
            attrRow vs ((ℓcur + j : ℕ) : ℤ)
          else sentinelRow := by
  intro rem
  induction rem with
  | zero => intro ℓcur j hj; omega
  | succ n ih =>
      intro ℓcur j hj
      have hnodup : (uniqueLabels vs).Nodup := (sorted_sortedDedup _).nodup
      have hstep := countP_lt_add_one (uniqueLabels vs) hnodup (ℓcur : ℤ)
      have hcast : ((ℓcur + 1 : ℕ) : ℤ) = (ℓcur : ℤ) + 1 := by push_cast; ring
      by_cases h : (ℓcur : ℤ) ∈ uniqueLabels vs
      · rw [buildVerticesGo, if_pos h]
        cases j with
        | zero =>
            rw [List.getD_cons_zero, attrRows_getD_countP vs _ h]
            simp [h]
        | succ m =>
            have hc : (uniqueLabels vs).countP (fun t => decide (t < (ℓcur : ℤ))) + 1
                = (uniqueLabels vs).countP
                    (fun t => decide (t < ((ℓcur + 1 : ℕ) : ℤ))) := by
              rw [hcast, hstep, if_pos h]
            rw [List.getD_cons_succ, hc, ih (ℓcur + 1) m (by omega)]
            have harith : ((ℓcur + 1 + m : ℕ) : ℤ) = ((ℓcur + (m + 1) : ℕ) : ℤ) := by
              push_cast
              ring
            rw [harith]
      · rw [buildVerticesGo, if_neg h]
        cases j with
        | zero =>
            rw [List.getD_cons_zero]
            simp [h]
        | succ m =>
            have hc : (uniqueLabels vs).countP (fun t => decide (t < (ℓcur : ℤ)))
                = (uniqueLabels vs).countP
                    (fun t => decide (t < ((ℓcur + 1 : ℕ) : ℤ))) := by
              rw [hcast, hstep, if_neg h]
              omega
            rw [List.getD_cons_succ, hc, ih (ℓcur + 1) m (by omega)]
            have harith : ((ℓcur + 1 + m : ℕ) : ℤ) = ((ℓcur + (m + 1) : ℕ) : ℤ) := by
              push_cast
              ring
            rw [harith]

end BuildGraphLemmas

/-- C5: for every volume-labelmap pair whose labels all lie in
`{0, ..., K-1}`, `build_graph` with `target_vertices = K` returns a vertex
matrix of exactly `K` rows in which row `ℓ` holds the centroid, mean
intensity and voxel count of label `ℓ` whenever label `ℓ` occurs in the
labelmap, and the all-+infinity sentinel row whenever it does not. -/
theorem C5_build_graph_target (vs : List Voxel) (K : ℕ)
    (hlab : ∀ v ∈ vs, 0 ≤ v.label ∧ v.label < (K : ℤ)) :
    (build_graph vs true (some K)).vertices.length = K ∧
    ∀ ℓ : ℕ, ℓ < K →
      (((ℓ : ℤ) ∈ vs.map Voxel.label →
          (build_graph vs true (some K)).vertices.getD ℓ [] = attrRow vs (ℓ : ℤ)) ∧
       ((ℓ : ℤ) ∉ vs.map Voxel.label →
          (build_graph vs true (some K)).vertices.getD ℓ [] = sentinelRow)) := by
  have hv : (build_graph vs true (some K)).vertices = buildVerticesTarget vs K := rfl
  have h0 : (uniqueLabels vs).countP (fun t => decide (t < (0 : ℤ))) = 0 := by
    rw [List.countP_eq_zero]
    intro b hb
    rcases List.mem_map.mp ((mem_uniqueLabels vs b).mp hb) with ⟨v, hv1, hv2⟩
    have := (hlab v hv1).1
    simp only [decide_eq_true_eq, not_lt]
    omega
  have hspec : ∀ ℓ : ℕ, ℓ < K →
      (buildVerticesTarget vs K).getD ℓ []
        = if (ℓ : ℤ) ∈ uniqueLabels vs then attrRow vs (ℓ : ℤ) else sentinelRow := by
    intro ℓ hℓ
    have := buildVerticesGo_spec vs K 0 ℓ hℓ
    simp only [Nat.cast_zero, Nat.zero_add] at this
    rw [h0] at this
    simpa [buildVerticesTarget] using this
  refine ⟨?_, ?_⟩
  · rw [hv, buildVerticesTarget, buildVerticesGo_length]
  · intro ℓ hℓ
    constructor
    · intro hmem
      rw [hv, hspec ℓ hℓ, if_pos ((mem_uniqueLabels vs _).mpr hmem)]
    · intro hmem
      rw [hv, hspec ℓ hℓ,
        if_neg (fun hc => hmem ((mem_uniqueLabels vs _).mp hc))]

/-- Witness for C5: a two-voxel labelmap whose only label is `0`, built with
target vertex count `2`: the matrix has two rows, row 0 is the attribute row
of label 0 and row 1 is the sentinel. -/
theorem C5_build_graph_target_witness :
    (∀ v ∈ [Voxel.mk 0 0 0 5 0, Voxel.mk 1 0 0 7 0],
        0 ≤ v.label ∧ v.label < (2 : ℤ)) ∧
    (build_graph [Voxel.mk 0 0 0 5 0, Voxel.mk 1 0 0 7 0] true (some 2)).vertices.length = 2 ∧
    (build_graph [Voxel.mk 0 0 0 5 0, Voxel.mk 1 0 0 7 0] true (some 2)).vertices.getD 1 []
      = sentinelRow := by
  have h := C5_build_graph_target [Voxel.mk 0 0 0 5 0, Voxel.mk 1 0 0 7 0] 2
    (by decide)
  exact ⟨by decide, h.1, (h.2 1 (by decide)).2 (by decide)⟩

/-! ## Normalization with supplied statistics
(src/spine_liver_functions.py, lines 83-109, the branch in which all four
statistics are passed in by the caller) and the global cost
(src/calibration.py line 113). -/

/-- Cast a rational-valued graph to a real-valued one (exact). -/
def SRG.toR (g : SRG ℚ) : SRG ℝ :=
  ⟨g.vertices.map (List.map EF.toR), g.edges.map (List.map EF.toR)⟩

/-- The zero-std substitution `std[std == 0] = 1`
(src/spine_liver_functions.py lines 94 and 102). -/
noncomputable def fixStd (s : List (EF ℝ)) : List (EF ℝ) :=
  s.map (fun x => if x = EF.fin 0 then EF.fin 1 else x)

/-- Standardize one attribute row: `(row - mean) / std`, elementwise. -/
noncomputable def normalizeRow (m s r : List (EF ℝ)) : List (EF ℝ) :=
  List.zipWith EF.div (List.zipWith EF.sub r m) s

/-- `normalize_graph(graph, mean_vertex, std_vertex, mean_edge, std_edge)`
with all statistics supplied (src/spine_liver_functions.py lines 83-109):
standardize the vertex matrix, and the edge matrix only when it is
non-empty.  This value-level model returns the updated graph; the in-place
aliasing behaviour of the Python function is modelled separately by the
store-passing embedding further below. -/
noncomputable def normalize_graph_apply (g : SRG ℝ) (mv sv me se : List (EF ℝ)) :
    SRG ℝ :=
  let vertices := g.vertices.map (normalizeRow mv (fixStd sv))
  if 0 < g.edges.length then
    ⟨vertices, g.edges.map (normalizeRow me (fixStd se))⟩
  else
    ⟨vertices, g.edges⟩

/-- One candidate (working) graph of the improvement loop: rebuild the graph
of a trial labelmap with the reference vertex count and standardize it with
the fixed reference statistics (src/calibration.py lines 128-129). -/
noncomputable def workingGraph (vs : List Voxel) (K : ℕ)
    (mv sv me se : List (EF ℝ)) : SRG ℝ :=
  normalize_graph_apply (SRG.toR (build_graph vs true (some K))) mv sv me se

/-- The global scalar cost of an assignment:
`graph_weights[0] * mean(vertex costs) + graph_weights[1] * mean(edge costs)`
(src/calibration.py line 113). -/
noncomputable def globalCost (gw : List ℚ) (vcosts ecosts : List (EF ℝ)) : EF ℝ :=
  EF.add (EF.smulQ (gw.getD 0 0) (EF.lmean vcosts))
    (EF.smulQ (gw.getD 1 0) (EF.lmean ecosts))

section IndexLemmas

theorem getD_map_lt {α β : Type} (f : α → β) (l : List α) (j : ℕ)
    (h : j < l.length) (d₁ : β) (d₂ : α) :
    (l.map f).getD j d₁ = f (l.getD j d₂) := by
  induction l generalizing j with
  | nil => simp at h
  | cons x t ih =>
      cases j with
      | zero => rfl
      | succ m =>
          simp only [List.map_cons, List.getD_cons_succ]
          exact ih m (by simpa using Nat.lt_of_succ_lt_succ h)

theorem getD_zipWith {α β γ : Type} (f : α → β → γ) (a : List α) (b : List β)
    (k : ℕ) (h1 : k < a.length) (h2 : k < b.length) (d : γ) (d₁ : α) (d₂ : β) :
    (List.zipWith f a b).getD k d = f (a.getD k d₁) (b.getD k d₂) := by
  induction a generalizing b k with
  | nil => simp at h1
  | cons x t ih =>
      cases b with
      | nil => simp at h2
      | cons y u =>
          cases k with
          | zero => rfl
          | succ m =>
              simp only [List.zipWith_cons_cons, List.getD_cons_succ]
              exact ih u m (by simpa using Nat.lt_of_succ_lt_succ h1)
                (by simpa using Nat.lt_of_succ_lt_succ h2)

theorem getD_mem_of_lt {α : Type} (l : List α) (n : ℕ) (h : n < l.length)
    (d : α) : l.getD n d ∈ l := by
  induction l generalizing n with
  | nil => simp at h
  | cons x t ih =>
      cases n with
      | zero => exact List.mem_cons_self x t
      | succ m =>
          exact List.mem_cons_of_mem x (ih m (by simpa using Nat.lt_of_succ_lt_succ h))

theorem flatMapEdges_length (W V : List (List (EF ℚ))) :
    (W.flatMap (fun vi => V.map (fun vj => edgeRow vi vj))).length
      = W.length * V.length := by
  induction W with
  | nil => simp
  | cons w t ih =>
      simp only [List.flatMap_cons, List.length_append, List.length_map, ih,
        List.length_cons]
      ring

theorem buildEdges_length (V : List (List (EF ℚ))) :
    (buildEdges V).length = V.length * V.length :=
  flatMapEdges_length V V

theorem flatMapEdges_getD (V : List (List (EF ℚ))) :
    ∀ (W : List (List (EF ℚ))) (i j : ℕ), i < W.length → j < V.length →
      (W.flatMap (fun vi => V.map (fun vj => edgeRow vi vj))).getD
          (i * V.length + j) []
        = edgeRow (W.getD i []) (V.getD j []) := by
  intro W
  induction W with
  | nil => intro i j hi hj; simp at hi
  | cons w t ih =>
      intro i j hi hj
      cases i with
      | zero =>
          simp only [List.flatMap_cons, Nat.zero_mul, Nat.zero_add,
            List.getD_cons_zero]
          rw [List.getD_append _ _ _ _ (by simpa using hj)]
          exact getD_map_lt _ V j hj [] []
      | succ m =>
          simp only [List.flatMap_cons]
          have hidx : (m + 1) * V.length + j
              = (V.map (fun vj => edgeRow w vj)).length + (m * V.length + j) := by
            simp only [List.length_map]
            ring
          rw [hidx, List.getD_append_right _ _ _ _ (Nat.le_add_right _ _)]
          rw [Nat.add_sub_cancel_left]
          exact ih m j (by simpa using Nat.lt_of_succ_lt_succ hi) hj

theorem buildEdges_getD (V : List (List (EF ℚ))) (i j : ℕ)
    (hi : i < V.length) (hj : j < V.length) :
    (buildEdges V).getD (i * V.length + j) []
      = edgeRow (V.getD i []) (V.getD j []) :=
  flatMapEdges_getD V V i j hi hj

end IndexLemmas

section NanPropagation

theorem buildVerticesGo_sentinel (vs : List Voxel) :
    ∀ rem ℓcur ai j, j < rem → ((ℓcur + j : ℕ) : ℤ) ∉ uniqueLabels vs →
      (buildVerticesGo vs ℓcur rem ai).getD j [] = sentinelRow := by
  intro rem
  induction rem with
  | zero => intro ℓcur ai j hj habs; omega
  | succ n ih =>
      intro ℓcur ai j hj habs
      by_cases h : (ℓcur : ℤ) ∈ uniqueLabels vs
      · rw [buildVerticesGo, if_pos h]
        cases j with
        | zero => exact absurd (by simpa using h) habs
        | succ m =>
            rw [List.getD_cons_succ]
            have := ih (ℓcur + 1) (ai + 1) m (by omega)
              (by
                intro hc
                exact habs (by
                  have : ((ℓcur + 1 + m : ℕ) : ℤ) = ((ℓcur + (m + 1) : ℕ) : ℤ) := by
                    push_cast
                    ring
                  rw [this] at hc
                  exact hc))
            exact this
      · rw [buildVerticesGo, if_neg h]
        cases j with
        | zero => rfl
        | succ m =>
            rw [List.getD_cons_succ]
            have := ih (ℓcur + 1) ai m (by omega)
              (by
                intro hc
                exact habs (by
                  have : ((ℓcur + 1 + m : ℕ) : ℤ) = ((ℓcur + (m + 1) : ℕ) : ℤ) := by
                    push_cast
                    ring
                  rw [this] at hc
                  exact hc))
            exact this

theorem edgeRow_sentinel :
    edgeRow sentinelRow sentinelRow = [EF.nan, EF.nan, EF.nan, EF.nan, EF.nan] := by
  rfl

theorem rowNorm_nan_of_mem (r : List (EF ℝ)) (h : EF.nan ∈ r) :
    rowNorm r = EF.nan := by
  have hsq : (EF.nan : EF ℝ) ∈ r.map EF.sq := by
    have := List.mem_map_of_mem EF.sq h
    simpa [EF.sq] using this
  rw [rowNorm, EF.lsum_nan_of_mem hsq]
  rfl

theorem fixStd_length (s : List (EF ℝ)) : (fixStd s).length = s.length :=
  List.length_map s _

theorem normalizeRow_length (m s r : List (EF ℝ)) :
    (normalizeRow m s r).length = min (min r.length m.length) s.length := by
  simp [normalizeRow]

theorem globalCost_nan_of_edge_nan (gw : List ℚ) (vcosts ecosts : List (EF ℝ))
    (h : EF.lmean ecosts = EF.nan) : globalCost gw vcosts ecosts = EF.nan := by
  rw [globalCost, h, EF.smulQ_nan, EF.add_nan_right]

end NanPropagation

/-- C9: if `build_graph` is called with a target vertex count `K` on a
labelmap in which some label `ℓ < K` is absent, the edge row of the ordered
pair `(ℓ, ℓ)` consists of NaN in every dimension (relative position:
`inf - inf`; contrast: `|inf - inf|`; size ratio: `inf / inf`); after
standardization, every candidate edge-cost list computed against a
reference edge matrix has NaN mean, so the global cost of any such
assignment is NaN and the strictly-less-than acceptance test rejects every
candidate compared against that cost. -/
theorem C9_absent_label_nan_cost (vs : List Voxel) (K ℓ : ℕ)
    (mv sv me se : List (EF ℝ)) (ME : List (List (EF ℝ))) (we gw : List ℚ)
    (vcosts : List (EF ℝ))
    (hℓ : ℓ < K)
    (habs : (ℓ : ℤ) ∉ vs.map Voxel.label)
    (hme : me.length = 5) (hse : se.length = 5)
    (hME : ME.length = K * K)
    (hMErow : ∀ r ∈ ME, r.length = 5)
    (hwe : we.length = 5) :
    (build_graph vs true (some K)).edges.getD (ℓ * K + ℓ) []
        = [EF.nan, EF.nan, EF.nan, EF.nan, EF.nan] ∧
    EF.lmean (compute_edge_cost (workingGraph vs K mv sv me se).edges ME we)
        = EF.nan ∧
    globalCost gw vcosts
        (compute_edge_cost (workingGraph vs K mv sv me se).edges ME we)
      = EF.nan ∧
    ∀ c, ¬ EF.lt c
        (globalCost gw vcosts
          (compute_edge_cost (workingGraph vs K mv sv me se).edges ME we)) := by
  have hKpos : 0 < K := Nat.pos_of_ne_zero (by omega)
  set V := buildVerticesTarget vs K with hV
  have hvlen : V.length = K := buildVerticesGo_length vs K 0 0
  have hidx : ℓ * K + ℓ < K * K := by
    calc ℓ * K + ℓ < ℓ * K + K := by omega
    _ = (ℓ + 1) * K := by ring
    _ ≤ K * K := Nat.mul_le_mul_right K (by omega)
  have hsent : V.getD ℓ [] = sentinelRow := by
    have := buildVerticesGo_sentinel vs K 0 0 ℓ hℓ
      (by
        intro hc
        exact habs ((mem_uniqueLabels vs _).mp (by simpa using hc)))
    simpa [hV, buildVerticesTarget] using this
  have hraw : (build_graph vs true (some K)).edges = buildEdges V := rfl
  have hpart1 : (build_graph vs true (some K)).edges.getD (ℓ * K + ℓ) []
      = [EF.nan, EF.nan, EF.nan, EF.nan, EF.nan] := by
    rw [hraw]
    have := buildEdges_getD V ℓ ℓ (by omega) (by omega)
    rw [hvlen] at this
    rw [this, hsent, edgeRow_sentinel]
  have hrawlen : (build_graph vs true (some K)).edges.length = K * K := by
    rw [hraw, buildEdges_length, hvlen]
  have htoRlen : (SRG.toR (build_graph vs true (some K))).edges.length = K * K := by
    simp [SRG.toR, hrawlen]
  have htoRrow : (SRG.toR (build_graph vs true (some K))).edges.getD (ℓ * K + ℓ) []
      = [EF.nan, EF.nan, EF.nan, EF.nan, EF.nan] := by
    have := getD_map_lt (List.map EF.toR) (build_graph vs true (some K)).edges
      (ℓ * K + ℓ) (by omega) [] []
    rw [show (SRG.toR (build_graph vs true (some K))).edges
        = (build_graph vs true (some K)).edges.map (List.map EF.toR) from rfl]
    rw [this, hpart1]
    rfl
  have hwg : (workingGraph vs K mv sv me se).edges
      = (SRG.toR (build_graph vs true (some K))).edges.map
          (normalizeRow me (fixStd se)) := by
    rw [workingGraph, normalize_graph_apply]
    rw [if_pos (by rw [htoRlen]; exact Nat.mul_pos hKpos hKpos)]
  have hwglen : (workingGraph vs K mv sv me se).edges.length = K * K := by
    rw [hwg, List.length_map, htoRlen]
  have hnrow : (workingGraph vs K mv sv me se).edges.getD (ℓ * K + ℓ) []
      = normalizeRow me (fixStd se) [EF.nan, EF.nan, EF.nan, EF.nan, EF.nan] := by
    rw [hwg]
    have := getD_map_lt (normalizeRow me (fixStd se))
      (SRG.toR (build_graph vs true (some K))).edges (ℓ * K + ℓ) (by omega) [] []
    rw [this, htoRrow]
  have hnrow0 : (normalizeRow me (fixStd se)
      [EF.nan, EF.nan, EF.nan, EF.nan, EF.nan]).getD 0 (EF.fin 0) = EF.nan := by
    rw [normalizeRow]
    rw [getD_zipWith EF.div _ _ 0
      (by simp [hme]) (by rw [fixStd_length, hse]; omega) (EF.fin 0) EF.nan (EF.fin 0)]
    rw [getD_zipWith EF.sub _ _ 0 (by simp) (by omega) EF.nan EF.nan (EF.fin 0)]
    rw [show ([EF.nan, EF.nan, EF.nan, EF.nan, EF.nan].getD 0 EF.nan : EF ℝ)
      = EF.nan from rfl]
    rw [EF.sub_nan_left, EF.div_nan_left]
  have hnrowlen : (normalizeRow me (fixStd se)
      [EF.nan, EF.nan, EF.nan, EF.nan, EF.nan]).length = 5 := by
    rw [normalizeRow_length, fixStd_length, hme, hse]
    rfl
  have hMErowlen : (ME.getD (ℓ * K + ℓ) []).length = 5 :=
    hMErow _ (getD_mem_of_lt ME (ℓ * K + ℓ) (by omega) [])
  have hwd0 : (weightedDiff (normalizeWeights we)
        (normalizeRow me (fixStd se) [EF.nan, EF.nan, EF.nan, EF.nan, EF.nan])
        (ME.getD (ℓ * K + ℓ) [])).getD 0 (EF.fin 0) = EF.nan := by
    rw [weightedDiff]
    rw [getD_zipWith EF.smulQ _ _ 0
      (by rw [normalizeWeights, List.length_map, hwe]; omega)
      (by rw [List.length_zipWith, hnrowlen, hMErowlen]; omega)
      (EF.fin 0) 0 (EF.fin 0)]
    rw [getD_zipWith EF.sub _ _ 0 (by rw [hnrowlen]; omega)
      (by rw [hMErowlen]; omega) (EF.fin 0) (EF.fin 0) (EF.fin 0)]
    rw [hnrow0, EF.sub_nan_left, EF.smulQ_nan]
  have hwdlen : 0 < (weightedDiff (normalizeWeights we)
        (normalizeRow me (fixStd se) [EF.nan, EF.nan, EF.nan, EF.nan, EF.nan])
        (ME.getD (ℓ * K + ℓ) [])).length := by
    rw [weightedDiff, List.length_zipWith, List.length_zipWith,
      normalizeWeights, List.length_map, hwe, hnrowlen, hMErowlen]
    omega
  have hwdmem : EF.nan ∈ weightedDiff (normalizeWeights we)
        (normalizeRow me (fixStd se) [EF.nan, EF.nan, EF.nan, EF.nan, EF.nan])
        (ME.getD (ℓ * K + ℓ) []) := by
    have := getD_mem_of_lt _ 0 hwdlen (EF.fin 0)
    rw [hwd0] at this
    exact this
  have hcost_idx : (compute_edge_cost (workingGraph vs K mv sv me se).edges ME we).getD
      (ℓ * K + ℓ) (EF.fin 0) = EF.nan := by
    rw [compute_edge_cost]
    rw [getD_zipWith _ _ _ (ℓ * K + ℓ) (by rw [hwglen]; omega) (by omega)
      (EF.fin 0) [] []]
    rw [hnrow]
    exact rowNorm_nan_of_mem _ hwdmem
  have hclen : (compute_edge_cost (workingGraph vs K mv sv me se).edges ME we).length
      = K * K := by
    rw [compute_edge_cost, List.length_zipWith, hwglen, hME]
    omega
  have hcmem : EF.nan ∈ compute_edge_cost (workingGraph vs K mv sv me se).edges ME we := by
    have := getD_mem_of_lt
      (compute_edge_cost (workingGraph vs K mv sv me se).edges ME we)
      (ℓ * K + ℓ) (by rw [hclen]; omega) (EF.fin 0)
    rw [hcost_idx] at this
    exact this
  have hmean : EF.lmean (compute_edge_cost (workingGraph vs K mv sv me se).edges ME we)
      = EF.nan := EF.lmean_nan_of_mem hcmem
  have hglobal : globalCost gw vcosts
      (compute_edge_cost (workingGraph vs K mv sv me se).edges ME we) = EF.nan :=
    globalCost_nan_of_edge_nan gw vcosts _ hmean
  refine ⟨hpart1, hmean, hglobal, ?_⟩
  intro c
  rw [hglobal]
  exact EF.not_lt_nan c

/-- Witness for C9: one voxel with label 0, target size 2, so label 1 is
absent; the diagonal edge row `(1,1)` is all NaN and the candidate edge-cost
mean against a concrete reference edge matrix is NaN. -/
theorem C9_absent_label_nan_cost_witness :
    (1 : ℕ) < 2 ∧
    ((1 : ℤ) ∉ [Voxel.mk 0 0 0 5 0].map Voxel.label) ∧
    (build_graph [Voxel.mk 0 0 0 5 0] true (some 2)).edges.getD (1 * 2 + 1) []
      = [EF.nan, EF.nan, EF.nan, EF.nan, EF.nan] ∧
    EF.lmean (compute_edge_cost
        (workingGraph [Voxel.mk 0 0 0 5 0] 2 (List.replicate 5 (EF.fin (0 : ℝ)))
          (List.replicate 5 (EF.fin (0 : ℝ))) (List.replicate 5 (EF.fin (0 : ℝ)))
          (List.replicate 5 (EF.fin (0 : ℝ)))).edges
        (List.replicate 4 (List.replicate 5 (EF.fin (0 : ℝ)))) [1, 1, 1, 1, 1])
      = EF.nan := by
  have h := C9_absent_label_nan_cost [Voxel.mk 0 0 0 5 0] 2 1
    (List.replicate 5 (EF.fin (0 : ℝ))) (List.replicate 5 (EF.fin (0 : ℝ)))
    (List.replicate 5 (EF.fin (0 : ℝ))) (List.replicate 5 (EF.fin (0 : ℝ)))
    (List.replicate 4 (List.replicate 5 (EF.fin (0 : ℝ)))) [1, 1, 1, 1, 1] [1, 1] []
    (by decide) (by decide) rfl rfl rfl
    (fun r hr => by rw [List.eq_of_mem_replicate hr]; rfl) rfl
  exact ⟨by decide, by decide, h.1, h.2.1⟩

/-! ## numpy argmin over float vectors
(the initial-solution nearest-match step, src/calibration.py lines 73-80) -/

/-- Index of the first NaN of a float vector, if any. -/
def firstNanIdx : List (EF ℝ) → Option ℕ
  | [] => none
  | v :: t => if EF.isNan v then some 0 else (firstNanIdx t).map (· + 1)

/-- The scan loop of numpy's argmin: keep the current best value and its
index, replacing it whenever a strictly smaller element appears (so the
first occurrence of the minimum wins). -/
noncomputable def npArgminGo : List (EF ℝ) → ℕ → ℕ × EF ℝ → ℕ × EF ℝ
  | [], _, best => best
  | v :: t, i, best =>
      npArgminGo t (i + 1) (if EF.lt v best.2 then (i, v) else best)

/-- `np.argmin` on a float vector: when NaNs are present the index of the
first NaN is returned (NaN propagation, as documented by numpy); otherwise
the index of the first occurrence of the minimum.  numpy raises on an empty
vector; the model returns 0 there and is only used on non-empty input. -/
noncomputable def npArgmin (l : List (EF ℝ)) : ℕ :=
  match firstNanIdx l with
  | some i => i
  | none =>
      match l with
      | [] => 0
      | v :: t => (npArgminGo t 1 (0, v)).1

section ArgminLemmas

variable {α : Type} [LinearOrderedField α]

theorem EF.lt_irrefl (a : EF α) : ¬ EF.lt a a := by
  cases a <;> simp [EF.lt]

theorem EF.lt_asymm {a b : EF α} (h : EF.lt a b) : ¬ EF.lt b a := by
  cases a <;> cases b <;> intro hc <;> simp only [EF.lt] at h hc <;> try exact hc
  exact absurd hc h.asymm

theorem EF.lt_trans {a b c : EF α} (h1 : EF.lt a b) (h2 : EF.lt b c) :
    EF.lt a c := by
  cases a <;> cases b <;> cases c <;> simp only [EF.lt] at h1 h2 ⊢ <;> try trivial
  exact h1.trans h2

theorem firstNanIdx_none_of_no_nan (l : List (EF ℝ))
    (h : ∀ v ∈ l, EF.isNan v = false) : firstNanIdx l = none := by
  induction l with
  | nil => rfl
  | cons v t ih =>
      rw [firstNanIdx]
      rw [if_neg (by simp [h v (List.mem_cons_self v t)])]
      rw [ih (fun u hu => h u (List.mem_cons_of_mem v hu))]
      rfl

/-- The argmin scan never returns a value above its seed, and no scanned
element is strictly below the returned value. -/
theorem npArgminGo_min (t : List (EF ℝ)) :
    ∀ (i : ℕ) (best : ℕ × EF ℝ),
      ((npArgminGo t i best).2 = best.2 ∨ EF.lt (npArgminGo t i best).2 best.2) ∧
      ∀ v ∈ t, ¬ EF.lt v (npArgminGo t i best).2 := by
  induction t with
  | nil => intro i best; exact ⟨Or.inl rfl, by simp⟩
  | cons v t ih =>
      intro i best
      rw [npArgminGo]
      by_cases h : EF.lt v best.2
      · rw [if_pos h]
        rcases ih (i + 1) (i, v) with ⟨hval, hrest⟩
        constructor
        · rcases hval with heq | hlt
          · exact Or.inr (heq ▸ h)
          · exact Or.inr (EF.lt_trans hlt h)
        · intro u hu
          rcases List.mem_cons.mp hu with rfl | hu2
          · rcases hval with heq | hlt
            · rw [heq]; exact EF.lt_irrefl u
            · exact fun hc => (EF.lt_asymm hlt) hc
          · exact hrest u hu2
      · rw [if_neg h]
        rcases ih (i + 1) best with ⟨hval, hrest⟩
        constructor
        · exact hval
        · intro u hu
          rcases List.mem_cons.mp hu with rfl | hu2
          · intro hc
            rcases hval with heq | hlt
            · exact h (heq ▸ hc)
            · exact h (EF.lt_trans hc hlt)
          · exact hrest u hu2

/-- The argmin scan returns an in-range index whose entry is the returned
value, provided the seed does. -/
theorem npArgminGo_getD (c : List (EF ℝ)) (d : EF ℝ) :
    ∀ (t : List (EF ℝ)) (i : ℕ) (best : ℕ × EF ℝ),
      t = c.drop i → best.1 < c.length → c.getD best.1 d = best.2 →
      (npArgminGo t i best).1 < c.length ∧
      c.getD (npArgminGo t i best).1 d = (npArgminGo t i best).2 := by
  intro t
  induction t with
  | nil => intro i best _ h1 h2; exact ⟨h1, h2⟩
  | cons v t ih =>
      intro i best hdrop h1 h2
      have hi : i < c.length := by
        by_contra hc
        rw [List.drop_eq_nil_of_le (not_lt.mp hc)] at hdrop
        cases hdrop
      rw [List.drop_eq_getElem_cons hi] at hdrop
      have hpair := List.cons.inj hdrop
      have hv : c.getD i d = v := by
        rw [List.getD_eq_getElem?_getD, List.getElem?_eq_getElem hi, Option.getD_some]
        exact hpair.1.symm
      have ht : t = c.drop (i + 1) := hpair.2
      rw [npArgminGo]
      by_cases h : EF.lt v best.2
      · rw [if_pos h]
        exact ih (i + 1) (i, v) ht hi hv
      · rw [if_neg h]
        exact ih (i + 1) best ht h1 h2

end ArgminLemmas

/-! ## Sentinel safety of the initial nearest-match step
(src/calibration.py lines 73-80) -/

/-- The initial-solution nearest-match for one super-region: stack the
super-vertex against every model vertex, compute the initial vertex costs
and take `np.argmin` (src/calibration.py lines 75-79). -/
noncomputable def initialMatch (sv : List (EF ℝ)) (M : List (List (EF ℝ)))
    (w : List ℚ) : ℕ :=
  npArgmin (compute_initial_vertex_cost (M.map (fun _ => sv)) M w)

section SentinelLemmas

theorem EF.isFin_iff {α : Type} (u : EF α) :
    EF.isFin u = true ↔ ∃ x, u = EF.fin x := by
  cases u <;> simp [EF.isFin]

theorem EF.isPinf_iff {α : Type} (u : EF α) :
    EF.isPinf u = true ↔ u = EF.pinf := by
  cases u <;> simp [EF.isPinf]

theorem mem_zipWith_sub_fin (a b : List (EF ℝ))
    (ha : ∀ u ∈ a, EF.isFin u = true) (hb : ∀ u ∈ b, EF.isFin u = true) :
    ∀ u ∈ List.zipWith EF.sub a b, EF.isFin u = true := by
  induction a generalizing b with
  | nil => simp
  | cons x t ih =>
      cases b with
      | nil => simp
      | cons y u =>
          intro v hv
          rcases List.mem_cons.mp (by simpa using hv) with rfl | hv2
          · rcases (EF.isFin_iff x).mp (ha x (List.mem_cons_self x t)) with ⟨p, rfl⟩
            rcases (EF.isFin_iff y).mp (hb y (List.mem_cons_self y u)) with ⟨q, rfl⟩
            rfl
          · exact ih u (fun r hr => ha r (List.mem_cons_of_mem x hr))
              (fun r hr => hb r (List.mem_cons_of_mem y hr)) v hv2

theorem mem_zipWith_smulQ_fin (w : List ℚ) (l : List (EF ℝ))
    (hl : ∀ u ∈ l, EF.isFin u = true) :
    ∀ u ∈ List.zipWith EF.smulQ w l, EF.isFin u = true := by
  induction w generalizing l with
  | nil => simp
  | cons q t ih =>
      cases l with
      | nil => simp
      | cons y u =>
          intro v hv
          rcases List.mem_cons.mp (by simpa using hv) with rfl | hv2
          · rcases (EF.isFin_iff y).mp (hl y (List.mem_cons_self y u)) with ⟨p, rfl⟩
            rfl
          · exact ih u (fun r hr => hl r (List.mem_cons_of_mem y hr)) v hv2

theorem lsum_sq_fin (l : List (EF ℝ)) (hl : ∀ u ∈ l, EF.isFin u = true) :
    ∃ z : ℝ, EF.lsum (l.map EF.sq) = EF.fin z ∧ 0 ≤ z := by
  induction l with
  | nil => exact ⟨0, rfl, le_refl 0⟩
  | cons u t ih =>
      rcases ih (fun r hr => hl r (List.mem_cons_of_mem u hr)) with ⟨z, hz, hz0⟩
      rcases (EF.isFin_iff u).mp (hl u (List.mem_cons_self u t)) with ⟨x, rfl⟩
      refine ⟨x * x + z, ?_, by nlinarith [mul_self_nonneg x]⟩
      simp only [List.map_cons, EF.lsum, List.foldr] at *
      rw [hz]
      rfl

theorem rowNorm_fin_of_allFin (r : List (EF ℝ))
    (hr : ∀ u ∈ r, EF.isFin u = true) : EF.isFin (rowNorm r) = true := by
  rcases lsum_sq_fin r hr with ⟨z, hz, hz0⟩
  rw [rowNorm, hz, sqrtR_fin_of_nonneg hz0]
  rfl

theorem initCost_fin (sv r : List (EF ℝ)) (w : List ℚ)
    (hsv : ∀ u ∈ sv, EF.isFin u = true) (hr : ∀ u ∈ r, EF.isFin u = true) :
    EF.isFin (rowNorm (weightedDiff (normalizeWeights w) sv.dropLast r.dropLast))
      = true := by
  apply rowNorm_fin_of_allFin
  rw [weightedDiff]
  apply mem_zipWith_smulQ_fin
  exact mem_zipWith_sub_fin _ _
    (fun u hu => hsv u (List.dropLast_subset sv hu))
    (fun u hu => hr u (List.dropLast_subset r hu))

theorem mem_normalizeWeights_ne_zero (w : List ℚ) (hw : ∀ q ∈ w, q ≠ 0)
    (hsum : w.sum ≠ 0) : ∀ q ∈ normalizeWeights w, q ≠ 0 := by
  intro q hq
  rcases List.mem_map.mp hq with ⟨p, hp, rfl⟩
  exact div_ne_zero (hw p hp) hsum

theorem mem_zipWith_sub_ninf (a b : List (EF ℝ))
    (ha : ∀ u ∈ a, EF.isFin u = true) (hb : ∀ u ∈ b, EF.isPinf u = true) :
    ∀ u ∈ List.zipWith EF.sub a b, u = EF.ninf := by
  induction a generalizing b with
  | nil => simp
  | cons x t ih =>
      cases b with
      | nil => simp
      | cons y u =>
          intro v hv
          rcases List.mem_cons.mp (by simpa using hv) with rfl | hv2
          · rcases (EF.isFin_iff x).mp (ha x (List.mem_cons_self x t)) with ⟨p, rfl⟩
            rw [(EF.isPinf_iff y).mp (hb y (List.mem_cons_self y u))]
            rfl
          · exact ih u (fun r hr => ha r (List.mem_cons_of_mem x hr))
              (fun r hr => hb r (List.mem_cons_of_mem y hr)) v hv2

theorem smulQ_ninf_ne_zero (q : ℚ) (hq : q ≠ 0) :
    EF.smulQ q (EF.ninf : EF ℝ) = EF.ninf ∨ EF.smulQ q (EF.ninf : EF ℝ) = EF.pinf := by
  rw [EF.smulQ]
  by_cases h : 0 < q
  · left; rw [if_neg hq, if_pos h]
  · right; rw [if_neg hq, if_neg h]

theorem mem_sq_zipWith_smulQ_ninf (w : List ℚ) (l : List (EF ℝ))
    (hw : ∀ q ∈ w, q ≠ 0) (hl : ∀ u ∈ l, u = EF.ninf) :
    ∀ u ∈ (List.zipWith EF.smulQ w l).map EF.sq, u = EF.pinf := by
  induction w generalizing l with
  | nil => simp
  | cons q t ih =>
      cases l with
      | nil => simp
      | cons y u =>
          intro v hv
          simp only [List.zipWith_cons_cons, List.map_cons] at hv
          rcases List.mem_cons.mp hv with rfl | hv2
          · rw [hl y (List.mem_cons_self y u)]
            rcases smulQ_ninf_ne_zero q (hw q (List.mem_cons_self q t)) with h | h
            · rw [h]; rfl
            · rw [h]; rfl
          · exact ih u (fun r hr => hw r (List.mem_cons_of_mem q hr))
              (fun r hr => hl r (List.mem_cons_of_mem y hr)) v hv2

theorem lsum_allPinf (l : List (EF ℝ)) (hne : l ≠ [])
    (hl : ∀ u ∈ l, u = EF.pinf) : EF.lsum l = EF.pinf := by
  induction l with
  | nil => exact absurd rfl hne
  | cons u t ih =>
      rw [hl u (List.mem_cons_self u t)]
      cases t with
      | nil => rfl
      | cons v t2 =>
          have := ih (by simp) (fun r hr => hl r (List.mem_cons_of_mem u hr))
          simp only [EF.lsum, List.foldr] at *
          rw [this]
          rfl

theorem sentinelCost_pinf (sv r : List (EF ℝ)) (w : List ℚ)
    (hsv : ∀ u ∈ sv, EF.isFin u = true)
    (hr : ∀ u ∈ r, EF.isPinf u = true)
    (hrlen : r.length = sv.length) (hn : 2 ≤ sv.length)
    (hw : ∀ q ∈ w, q ≠ 0) (hsum : w.sum ≠ 0) (hwlen : w.length = sv.length - 1) :
    rowNorm (weightedDiff (normalizeWeights w) sv.dropLast r.dropLast)
      = EF.pinf := by
  have hsub : ∀ u ∈ List.zipWith EF.sub sv.dropLast r.dropLast, u = EF.ninf :=
    mem_zipWith_sub_ninf _ _
      (fun u hu => hsv u (List.dropLast_subset sv hu))
      (fun u hu => hr u (List.dropLast_subset r hu))
  have hsq : ∀ u ∈ (weightedDiff (normalizeWeights w) sv.dropLast r.dropLast).map
      EF.sq, u = EF.pinf := by
    rw [weightedDiff]
    exact mem_sq_zipWith_smulQ_ninf _ _ (mem_normalizeWeights_ne_zero w hw hsum) hsub
  have hlen : (weightedDiff (normalizeWeights w) sv.dropLast r.dropLast).length
      = sv.length - 1 := by
    rw [weightedDiff, List.length_zipWith, List.length_zipWith, normalizeWeights,
      List.length_map, List.length_dropLast, List.length_dropLast, hrlen, hwlen]
    omega
  have hne : (weightedDiff (normalizeWeights w) sv.dropLast r.dropLast).map EF.sq
      ≠ [] := by
    intro hc
    have := congrArg List.length hc
    rw [List.length_map, hlen] at this
    simp at this
    omega
  rw [rowNorm, lsum_allPinf _ hne hsq]
  rfl

end SentinelLemmas

section InitCostLemmas

theorem initCosts_length (sv : List (EF ℝ)) (M : List (List (EF ℝ))) (w : List ℚ) :
    (compute_initial_vertex_cost (M.map (fun _ => sv)) M w).length = M.length := by
  rw [compute_initial_vertex_cost, List.length_zipWith, List.length_map]
  omega

theorem initCosts_getD (sv : List (EF ℝ)) (M : List (List (EF ℝ))) (w : List ℚ)
    (j : ℕ) (hj : j < M.length) :
    (compute_initial_vertex_cost (M.map (fun _ => sv)) M w).getD j (EF.fin 0)
      = rowNorm (weightedDiff (normalizeWeights w) sv.dropLast
          ((M.getD j []).dropLast)) := by
  rw [compute_initial_vertex_cost]
  rw [getD_zipWith _ _ _ j (by rw [List.length_map]; exact hj) hj (EF.fin 0) [] []]
  rw [getD_map_lt (fun _ => sv) M j hj [] []]

end InitCostLemmas

/-- C6 (amended): for every weight vector with all entries nonzero and
nonzero sum, every all-finite super-vertex row of width at least 2, and
every model vertex list whose rows are each all-finite (real) or
all-+infinity (sentinel) of the same width, if at least one model row is
real then the `np.argmin` nearest-match never returns the index of a
sentinel row.  (The all-entries-nonzero condition is forced by the
counterexample below: a zero weight times an infinite attribute difference
is NaN, and numpy's argmin returns the first NaN index.) -/
theorem C6_sentinel_safety (sv : List (EF ℝ)) (M : List (List (EF ℝ))) (w : List ℚ)
    (hsv : ∀ u ∈ sv, EF.isFin u = true)
    (hn : 2 ≤ sv.length)
    (hw : ∀ q ∈ w, q ≠ 0) (hsum : w.sum ≠ 0) (hwlen : w.length = sv.length - 1)
    (hrows : ∀ r ∈ M, r.length = sv.length)
    (hM : ∀ r ∈ M, (∀ u ∈ r, EF.isFin u = true) ∨ (∀ u ∈ r, EF.isPinf u = true))
    (hreal : ∃ j, j < M.length ∧ ∀ u ∈ M.getD j [], EF.isFin u = true) :
    initialMatch sv M w < M.length ∧
    ¬ (∀ u ∈ M.getD (initialMatch sv M w) [], EF.isPinf u = true) := by
  set costs := compute_initial_vertex_cost (M.map (fun _ => sv)) M w with hcosts
  have hclen : costs.length = M.length := initCosts_length sv M w
  have hclass : ∀ j, j < M.length →
      EF.isFin (costs.getD j (EF.fin 0)) = true ∨ costs.getD j (EF.fin 0) = EF.pinf := by
    intro j hj
    rw [hcosts, initCosts_getD sv M w j hj]
    rcases hM (M.getD j []) (getD_mem_of_lt M j hj []) with hfin | hpinf
    · exact Or.inl (initCost_fin sv _ w hsv hfin)
    · exact Or.inr (sentinelCost_pinf sv _ w hsv hpinf
        (hrows _ (getD_mem_of_lt M j hj [])) hn hw hsum hwlen)
  have hnonan : ∀ v ∈ costs, EF.isNan v = false := by
    intro v hv
    rcases List.getElem_of_mem hv with ⟨j, hj, rfl⟩
    have hj2 : j < M.length := by rw [← hclen]; exact hj
    have hval : costs.getD j (EF.fin 0) = costs[j] := by
      rw [List.getD_eq_getElem?_getD, List.getElem?_eq_getElem hj, Option.getD_some]
    rcases hclass j hj2 with h | h
    · rw [hval] at h
      rcases (EF.isFin_iff _).mp h with ⟨x, hx⟩
      rw [hx]
      rfl
    · rw [hval] at h
      rw [h]
      rfl
  have hMne : 0 < M.length := by
    rcases hreal with ⟨j, hj, _⟩
    omega
  have hne : costs ≠ [] := by
    intro hc
    rw [hc] at hclen
    simp at hclen
    omega
  obtain ⟨c0, t, hcons⟩ := List.exists_cons_of_ne_nil hne
  have hfn : firstNanIdx costs = none := firstNanIdx_none_of_no_nan costs hnonan
  have hargm : npArgmin costs = (npArgminGo t 1 (0, c0)).1 := by
    rw [npArgmin.eq_def, hfn, hcons]
  have hdrop : t = costs.drop 1 := by rw [hcons]; rfl
  have hseed1 : (0 : ℕ) < costs.length := by rw [hcons]; simp
  have hseed2 : costs.getD 0 (EF.fin 0) = c0 := by rw [hcons]; rfl
  have hg := npArgminGo_getD costs (EF.fin 0) t 1 (0, c0) hdrop hseed1 hseed2
  have hmin := npArgminGo_min t 1 (0, c0)
  have hinit : initialMatch sv M w = (npArgminGo t 1 (0, c0)).1 := by
    rw [initialMatch, ← hcosts, hargm]
  have hlt : initialMatch sv M w < M.length := by
    rw [hinit, ← hclen]
    exact hg.1
  refine ⟨hlt, ?_⟩
  intro hall
  have hr1M : (npArgminGo t 1 (0, c0)).1 < M.length := by rw [← hinit]; exact hlt
  have hcr : costs.getD (npArgminGo t 1 (0, c0)).1 (EF.fin 0) = EF.pinf := by
    rw [hcosts, initCosts_getD sv M w _ hr1M]
    apply sentinelCost_pinf sv _ w hsv _ (hrows _ (getD_mem_of_lt M _ hr1M []))
      hn hw hsum hwlen
    rw [← hinit]
    exact hall
  have hr2 : (npArgminGo t 1 (0, c0)).2 = EF.pinf := by
    rw [← hg.2, hcr]
  rcases hreal with ⟨j, hjM, hjfin⟩
  have hcj : EF.isFin (costs.getD j (EF.fin 0)) = true := by
    rw [hcosts, initCosts_getD sv M w j hjM]
    exact initCost_fin sv _ w hsv hjfin
  rcases (EF.isFin_iff _).mp hcj with ⟨x, hx⟩
  rcases Nat.eq_zero_or_pos j with rfl | hjpos
  · rw [hseed2] at hx
    rcases hmin.1 with heq | hltv
    · rw [heq, hx] at hr2
      cases hr2
    · rw [hr2, hx] at hltv
      simp [EF.lt] at hltv
  · obtain ⟨m, rfl⟩ : ∃ m, j = m + 1 := ⟨j - 1, by omega⟩
    have hmem : costs.getD (m + 1) (EF.fin 0) ∈ t := by
      rw [hcons, List.getD_cons_succ]
      apply getD_mem_of_lt
      have : costs.length = t.length + 1 := by rw [hcons]; rfl
      omega
    have := hmin.2 _ hmem
    rw [hx, hr2] at this
    simp [EF.lt] at this

/-- Witness for the amended C6 at the repository's calibration weights
`(1,1,1,7)` (all nonzero): one real model row, one sentinel row; the
nearest-match never lands on the sentinel. -/
theorem C6_sentinel_safety_witness :
    (∀ q ∈ ([1, 1, 1, 7] : List ℚ), q ≠ 0) ∧
    ¬ (∀ u ∈ [[EF.fin (0 : ℝ), EF.fin 0, EF.fin 0, EF.fin 0, EF.fin 1],
          ([EF.pinf, EF.pinf, EF.pinf, EF.pinf, EF.pinf] : List (EF ℝ))].getD
        (initialMatch [EF.fin (0 : ℝ), EF.fin 0, EF.fin 0, EF.fin 0, EF.fin 1]
          [[EF.fin (0 : ℝ), EF.fin 0, EF.fin 0, EF.fin 0, EF.fin 1],
           [EF.pinf, EF.pinf, EF.pinf, EF.pinf, EF.pinf]] [1, 1, 1, 7]) [],
        EF.isPinf u = true) := by
  have h := C6_sentinel_safety
    [EF.fin (0 : ℝ), EF.fin 0, EF.fin 0, EF.fin 0, EF.fin 1]
    [[EF.fin (0 : ℝ), EF.fin 0, EF.fin 0, EF.fin 0, EF.fin 1],
     [EF.pinf, EF.pinf, EF.pinf, EF.pinf, EF.pinf]]
    [1, 1, 1, 7]
    (by decide) (by decide)
    (by intro q hq; fin_cases hq <;> norm_num)
    (by norm_num) rfl (by decide) (by decide)
    ⟨0, by decide, by decide⟩
  exact ⟨by intro q hq; fin_cases hq <;> norm_num, h.2⟩

section CounterexampleLemmas

theorem EF.sub_fin_pinf {α : Type} [LinearOrderedField α] (x : α) :
    EF.sub (EF.fin x) EF.pinf = EF.ninf := rfl

theorem EF.smulQ_zero_ninf {α : Type} [LinearOrderedField α] :
    EF.smulQ (0 : ℚ) (EF.ninf : EF α) = EF.nan := by
  simp [EF.smulQ]

theorem npArgmin_fin_nan (x : ℝ) : npArgmin [EF.fin x, EF.nan] = 1 := rfl

end CounterexampleLemmas

/-- Counterexample to C6 as stated ("for every weight vector"): with the
repository's own 2d-exploration initial weights `(1,1,0,1)` — which contain
a zero — the cost of a finite super-vertex against the all-infinity
sentinel is NaN (`0 * inf`), numpy's argmin returns the first NaN index,
and so the sentinel index 1 is selected even though the real candidate at
index 0 has finite cost. -/
theorem C6_zero_weight_counterexample :
    initialMatch (finRow [0, 0, 0, 0, 1])
        [finRow [0, 0, 0, 0, 1], [EF.pinf, EF.pinf, EF.pinf, EF.pinf, EF.pinf]]
        [1, 1, 0, 1] = 1 ∧
    (∀ u ∈ ([EF.pinf, EF.pinf, EF.pinf, EF.pinf, EF.pinf] : List (EF ℝ)),
        EF.isPinf u = true) ∧
    EF.isFin ((compute_initial_vertex_cost
        ([finRow [0, 0, 0, 0, 1],
          ([EF.pinf, EF.pinf, EF.pinf, EF.pinf, EF.pinf] : List (EF ℝ))].map
            (fun _ => finRow [0, 0, 0, 0, 1]))
        [finRow [0, 0, 0, 0, 1], [EF.pinf, EF.pinf, EF.pinf, EF.pinf, EF.pinf]]
        [1, 1, 0, 1]).getD 0 (EF.fin 0)) = true := by
  have hwn : normalizeWeights [1, 1, 0, 1] = [1/3, 1/3, 0, 1/3] := by
    simp only [normalizeWeights, List.map, List.sum_cons, List.sum_nil]
    norm_num
  have hcostsEq : compute_initial_vertex_cost
      ([finRow [0, 0, 0, 0, 1],
        ([EF.pinf, EF.pinf, EF.pinf, EF.pinf, EF.pinf] : List (EF ℝ))].map
          (fun _ => finRow [0, 0, 0, 0, 1]))
      [finRow [0, 0, 0, 0, 1], [EF.pinf, EF.pinf, EF.pinf, EF.pinf, EF.pinf]]
      [1, 1, 0, 1]
      = [rowNorm (weightedDiff (normalizeWeights [1, 1, 0, 1])
            (finRow [0, 0, 0, 0, 1]).dropLast (finRow [0, 0, 0, 0, 1]).dropLast),
         rowNorm (weightedDiff (normalizeWeights [1, 1, 0, 1])
            (finRow [0, 0, 0, 0, 1]).dropLast
            ([EF.pinf, EF.pinf, EF.pinf, EF.pinf, EF.pinf] :
              List (EF ℝ)).dropLast)] := rfl
  have h0 : EF.isFin (rowNorm (weightedDiff (normalizeWeights [1, 1, 0, 1])
      (finRow [0, 0, 0, 0, 1]).dropLast (finRow [0, 0, 0, 0, 1]).dropLast))
      = true := by
    rw [dropLast_finRow, rowNorm_weightedDiff_finRow]
    rfl
  have h1 : rowNorm (weightedDiff (normalizeWeights [1, 1, 0, 1])
      (finRow [0, 0, 0, 0, 1]).dropLast
      ([EF.pinf, EF.pinf, EF.pinf, EF.pinf, EF.pinf] : List (EF ℝ)).dropLast)
      = EF.nan := by
    apply rowNorm_nan_of_mem
    rw [weightedDiff, hwn, dropLast_finRow]
    simp only [finRow, List.map, List.dropLast, List.zipWith_cons_cons,
      List.zipWith_nil_right, EF.sub_fin_pinf, EF.smulQ_zero_ninf]
    exact List.mem_cons_of_mem _ (List.mem_cons_of_mem _ (List.mem_cons_self _ _))
  refine ⟨?_, by decide, ?_⟩
  · rw [initialMatch, hcostsEq]
    rcases (EF.isFin_iff _).mp h0 with ⟨x, hx⟩
    rw [hx, h1]
    exact npArgmin_fin_nan x
  · rw [hcostsEq, List.getD_cons_zero]
    exact h0

/-! ## The improvement loop
(src/calibration.py, lines 103-163) -/

/-- One voxel of the observed (over-segmented) volume: coordinates,
intensity and its super-region id. -/
structure OVoxel : Type where
  x : ℚ
  y : ℚ
  z : ℚ
  intensity : ℚ
  region : ℕ
deriving DecidableEq

/-- The joined labelmap (src/calibration.py lines 92-94 and 154-156): start
from zeros and write each super-region's predicted label over its voxels, so
a voxel's label is `solution[region]` (and 0 for an out-of-range region). -/
def joinedVoxels (solution : List ℤ) (obs : List OVoxel) : List Voxel :=
  obs.map (fun v => ⟨v.x, v.y, v.z, v.intensity, solution.getD v.region 0⟩)

/-- A trial labelmap: the joined labelmap with the selected super-region
relabeled to the candidate label (src/calibration.py lines 124-125). -/
def relabeledVoxels (solution : List ℤ) (obs : List OVoxel) (s : ℕ) (p : ℤ) :
    List Voxel :=
  obs.map (fun v =>
    ⟨v.x, v.y, v.z, v.intensity,
      if v.region = s then p else solution.getD v.region 0⟩)

/-- The global cost of one candidate replacement
(src/calibration.py lines 124-134): relabel the selected super-region,
rebuild and standardize the working graph, and combine the mean vertex and
edge costs with the graph weights.  The `compute_edge_cost` call at line 133
omits `weights`, so the default all-ones vector applies there. -/
noncomputable def potentialCost (obs : List OVoxel) (solution : List ℤ) (s : ℕ)
    (K : ℕ) (mv sv me se : List (EF ℝ)) (modelG : SRG ℝ) (vw gw : List ℚ)
    (p : ℤ) : EF ℝ :=
  globalCost gw
    (compute_vertex_cost
      (workingGraph (relabeledVoxels solution obs s p) K mv sv me se).vertices
      modelG.vertices vw)
    (compute_edge_cost
      (workingGraph (relabeledVoxels solution obs s p) K mv sv me se).edges
      modelG.edges [1, 1, 1, 1, 1])

/-- One candidate of the inner improvement loop
(src/calibration.py lines 119-141): skip a candidate equal to the current
prediction, otherwise accept it iff its cost is strictly below the tracked
current cost. -/
noncomputable def improveStep (cost : ℤ → EF ℝ) (st : ℤ × EF ℝ) (p : ℤ) :
    ℤ × EF ℝ :=
  if p = st.1 then st
  else if EF.lt (cost p) st.2 then (p, cost p) else st

/-- The inner candidate loop over the potential predictions of one selected
super-region (src/calibration.py lines 119-141). -/
noncomputable def improveRegion (cost : ℤ → EF ℝ) (cands : List ℤ) (p₀ : ℤ)
    (c₀ : EF ℝ) : ℤ × EF ℝ :=
  cands.foldl (improveStep cost) (p₀, c₀)

theorem improveRegion_monotone (cost : ℤ → EF ℝ) (cands : List ℤ) :
    ∀ (p₀ : ℤ) (c₀ : EF ℝ),
      ((improveRegion cost cands p₀ c₀).2 = c₀ ∨
        EF.lt (improveRegion cost cands p₀ c₀).2 c₀) ∧
      ((improveRegion cost cands p₀ c₀).1 ≠ p₀ →
        EF.lt (improveRegion cost cands p₀ c₀).2 c₀) := by
  induction cands with
  | nil => intro p₀ c₀; exact ⟨Or.inl rfl, fun h => absurd rfl h⟩
  | cons p rest ih =>
      intro p₀ c₀
      have hfold : improveRegion cost (p :: rest) p₀ c₀
          = rest.foldl (improveStep cost) (improveStep cost (p₀, c₀) p) := rfl
      rw [improveRegion, List.foldl_cons]
      rw [improveStep]
      by_cases h1 : p = p₀
      · rw [if_pos (by simpa using h1)]
        exact ih p₀ c₀
      · rw [if_neg (by simpa using h1)]
        by_cases h2 : EF.lt (cost p) c₀
        · rw [if_pos (by simpa using h2)]
          rcases ih p (cost p) with ⟨hval, _⟩
          have hlow : EF.lt (rest.foldl (improveStep cost) (p, cost p)).2 c₀ := by
            rcases hval with heq | hlt
            · rw [show (rest.foldl (improveStep cost) (p, cost p))
                = improveRegion cost rest p (cost p) from rfl] at *
              rw [heq]
              exact h2
            · exact EF.lt_trans hlt h2
          exact ⟨Or.inr hlow, fun _ => hlow⟩
        · rw [if_neg (by simpa using h2)]
          exact ih p₀ c₀

/-- C1: in the improvement loop's candidate scan, a replacement label is
accepted only when its global cost (graph-weighted mean vertex plus mean
edge cost against the reference graph) is strictly lower than the tracked
current global cost — ties keep the current label — so across the whole
scan the tracked global cost never increases: the final cost equals the
starting cost or is strictly below it, and it is strictly below it whenever
the prediction changed. -/
theorem C1_acceptance_monotone (obs : List OVoxel) (solution : List ℤ) (s K : ℕ)
    (mv sv me se : List (EF ℝ)) (modelG : SRG ℝ) (vw gw : List ℚ)
    (cands : List ℤ) (p₀ : ℤ) (c₀ : EF ℝ) :
    ((improveRegion (potentialCost obs solution s K mv sv me se modelG vw gw)
        cands p₀ c₀).2 = c₀ ∨
      EF.lt (improveRegion (potentialCost obs solution s K mv sv me se modelG vw gw)
        cands p₀ c₀).2 c₀) ∧
    ((improveRegion (potentialCost obs solution s K mv sv me se modelG vw gw)
        cands p₀ c₀).1 ≠ p₀ →
      EF.lt (improveRegion (potentialCost obs solution s K mv sv me se modelG vw gw)
        cands p₀ c₀).2 c₀) :=
  improveRegion_monotone _ cands p₀ c₀

/-! ## Epoch structure and priority costs
(src/calibration.py, lines 105-163) -/

/-- The labels currently held by the spatial neighbors of a super-region,
as a duplicate-free set (src/calibration.py line 118; the RAG adjacency is
an undirected edge list). -/
def neighborLabels (adjacency : List (ℕ × ℕ)) (solution : List ℤ) (s : ℕ) :
    List ℤ :=
  ((adjacency.filterMap (fun e =>
      if e.1 = s then some e.2 else if e.2 = s then some e.1 else none)).map
    (fun nb => solution.getD nb 0)).dedup

/-- `np.min` of a float vector: the entry at the argmin index (NaN when any
NaN is present). -/
noncomputable def npMin (l : List (EF ℝ)) : EF ℝ :=
  l.getD (npArgmin l) (EF.fin 0)

/-- The solver state carried across epochs: the assignment, the priority
costs, and the epoch-start assignment snapshot from which the joined
labelmap and the epoch's observation graph were rebuilt at the last epoch
boundary (src/calibration.py lines 73-74, 92-96 and 154-158). -/
structure CalState : Type where
  solution : List ℤ
  solutionCosts : List (EF ℝ)
  joinedSolution : List ℤ

/-- The worst-first selection of one epoch
(src/calibration.py line 109): enumerate the priority costs, sort in
descending cost order, keep the first `cutoff` indices. -/
noncomputable def selectRegions (costs : List (EF ℝ)) (cutoff : ℕ) : List ℕ :=
  ((List.insertionSort (fun a b : ℕ × EF ℝ => ¬ EF.lt a.2 b.2)
      costs.enum).take cutoff).map Prod.fst

/-- The per-region body of one epoch (src/calibration.py lines 109-149):
recompute the current global cost from the epoch's stale observation graph,
scan the neighbor-label candidates, store the final prediction, and set the
region's priority cost to the deprioritized marker 0. -/
noncomputable def attemptRegion (obs : List OVoxel) (adjacency : List (ℕ × ℕ))
    (K : ℕ) (mv sv me se : List (EF ℝ)) (modelG : SRG ℝ) (vw ew gw : List ℚ)
    (st : CalState) (s : ℕ) : CalState :=
  let currentCost := globalCost gw
    (compute_vertex_cost
      (workingGraph (joinedVoxels st.joinedSolution obs) K mv sv me se).vertices
      modelG.vertices vw)
    (compute_edge_cost
      (workingGraph (joinedVoxels st.joinedSolution obs) K mv sv me se).edges
      modelG.edges ew)
  let r := improveRegion
    (potentialCost obs st.joinedSolution s K mv sv me se modelG vw gw)
    (neighborLabels adjacency st.solution s) (st.solution.getD s 0) currentCost
  ⟨st.solution.set s r.1, st.solutionCosts.set s (EF.fin 0), st.joinedSolution⟩

/-- One full epoch (src/calibration.py lines 107-163): worst-first selection
of the top-`cutoff` regions by priority cost, the per-region improvement
body for each, then the epoch boundary, which rebuilds the joined labelmap
and observation graph from the new assignment and recomputes diagnostic
costs — but writes nothing back into `solution_costs`. -/
noncomputable def epochStep (obs : List OVoxel) (adjacency : List (ℕ × ℕ))
    (K : ℕ) (mv sv me se : List (EF ℝ)) (modelG : SRG ℝ) (vw ew gw : List ℚ)
    (cutoff : ℕ) (st : CalState) : CalState :=
  let st2 := (selectRegions st.solutionCosts cutoff).foldl
    (attemptRegion obs adjacency K mv sv me se modelG vw ew gw) st
  ⟨st2.solution, st2.solutionCosts, st2.solution⟩

/-- Modelled from the spec: the epoch-boundary "full recomputation" of
priority costs that the spec's improvement-loop step 7 promises
("full epoch recomputation restores meaningful priorities at the next
epoch boundary"), namely the initialization rule: each super-region's
priority is its minimal initial vertex cost against the reference
vertices.  No such recomputation exists anywhere in src/. -/
noncomputable def restoredPriorities (superVertices : List (List (EF ℝ)))
    (M : List (List (EF ℝ))) (w : List ℚ) : List (EF ℝ) :=
  superVertices.map
    (fun sv => npMin (compute_initial_vertex_cost (M.map (fun _ => sv)) M w))

section EpochLemmas

theorem foldl_attempt_costs (obs : List OVoxel) (adjacency : List (ℕ × ℕ))
    (K : ℕ) (mv sv me se : List (EF ℝ)) (modelG : SRG ℝ) (vw ew gw : List ℚ)
    (order : List ℕ) :
    ∀ st : CalState,
      (order.foldl (attemptRegion obs adjacency K mv sv me se modelG vw ew gw)
          st).solutionCosts
        = order.foldl (fun cs s => cs.set s (EF.fin 0)) st.solutionCosts := by
  induction order with
  | nil => intro st; rfl
  | cons s rest ih =>
      intro st
      rw [List.foldl_cons, List.foldl_cons, ih]
      rfl

theorem selectRegions_nodup (costs : List (EF ℝ)) (cutoff : ℕ) :
    (selectRegions costs cutoff).Nodup := by
  have hperm : (List.insertionSort (fun a b : ℕ × EF ℝ => ¬ EF.lt a.2 b.2)
      costs.enum).Perm costs.enum := List.perm_insertionSort _ _
  have hmap : ((List.insertionSort (fun a b : ℕ × EF ℝ => ¬ EF.lt a.2 b.2)
      costs.enum).map Prod.fst).Perm (costs.enum.map Prod.fst) :=
    hperm.map Prod.fst
  have hnodup : ((List.insertionSort (fun a b : ℕ × EF ℝ => ¬ EF.lt a.2 b.2)
      costs.enum).map Prod.fst).Nodup := by
    rw [hmap.nodup_iff, List.enum_map_fst]
    exact List.nodup_range _
  have hsub : (selectRegions costs cutoff).Sublist
      ((List.insertionSort (fun a b : ℕ × EF ℝ => ¬ EF.lt a.2 b.2)
        costs.enum).map Prod.fst) := by
    rw [selectRegions]
    exact (List.take_sublist _ _).map Prod.fst
  exact hnodup.sublist hsub

end EpochLemmas

/-- C8 (amended): within an epoch the priority cost of every attempted
region — accepted or not — is set to the deprioritized marker 0, and the
worst-first top-`cutoff` selection never contains a region twice, so no
region is re-attempted within one epoch; but the epoch boundary recomputes
only the joined graph and diagnostic costs and leaves the priority-cost
array untouched, so after the epoch the priority costs are exactly the
epoch-start costs with the attempted regions zeroed — no restoration
happens. -/
theorem C8_priority_marker (obs : List OVoxel) (adjacency : List (ℕ × ℕ))
    (K : ℕ) (mv sv me se : List (EF ℝ)) (modelG : SRG ℝ) (vw ew gw : List ℚ)
    (cutoff : ℕ) (st : CalState) :
    (epochStep obs adjacency K mv sv me se modelG vw ew gw cutoff st).solutionCosts
      = (selectRegions st.solutionCosts cutoff).foldl
          (fun cs s => cs.set s (EF.fin 0)) st.solutionCosts ∧
    (selectRegions st.solutionCosts cutoff).Nodup := by
  constructor
  · rw [epochStep]
    exact foldl_attempt_costs obs adjacency K mv sv me se modelG vw ew gw _ st
  · exact selectRegions_nodup st.solutionCosts cutoff

theorem npMin_fin_singleton (x : ℝ) : npMin [EF.fin x] = EF.fin x := rfl

/-- Counterexample to C8 as stated: a one-region instance whose single
region is attempted during the epoch.  After the epoch boundary the
priority-cost array is `[0]` (the deprioritized marker persists), while the
restoration the claim promises — recomputing each region's minimal initial
vertex cost — would yield a nonzero priority, so no full recomputation of
priorities happens at the epoch boundary. -/
theorem C8_no_restore_counterexample :
    (epochStep [OVoxel.mk 0 0 0 5 0] [] 1 (List.replicate 5 (EF.fin (0 : ℝ)))
        (List.replicate 5 (EF.fin (0 : ℝ))) (List.replicate 5 (EF.fin (0 : ℝ)))
        (List.replicate 5 (EF.fin (0 : ℝ))) (SRG.mk [[EF.fin (0 : ℝ)]] [])
        [1, 1, 1, 1, 1] [1, 1, 1, 1, 1] [1, 1] 1
        (CalState.mk [0] [EF.fin 1] [0])).solutionCosts = [EF.fin 0] ∧
    restoredPriorities [finRow [1, 0, 0, 0, 1]] [finRow [0, 0, 0, 0, 1]] [1, 1, 1, 1]
      ≠ [EF.fin 0] := by
  constructor
  · rfl
  · intro hc
    have h1 : restoredPriorities [finRow [1, 0, 0, 0, 1]] [finRow [0, 0, 0, 0, 1]]
        [1, 1, 1, 1]
        = [npMin [rowNorm (weightedDiff (normalizeWeights [1, 1, 1, 1])
            (finRow [1, 0, 0, 0, 1]).dropLast (finRow [0, 0, 0, 0, 1]).dropLast)]] := rfl
    rw [h1, dropLast_finRow, dropLast_finRow, rowNorm_weightedDiff_finRow,
      npMin_fin_singleton] at hc
    have h2 := (List.cons.inj hc).1
    have h3 : Real.sqrt (((List.zipWith (fun q x => (q : ℝ) * x)
        (normalizeWeights [1, 1, 1, 1])
        (List.zipWith (fun x y => (x : ℝ) - (y : ℝ))
          ([1, 0, 0, 0, 1] : List ℚ).dropLast
          ([0, 0, 0, 0, 1] : List ℚ).dropLast)).map (fun x => x * x)).sum) = 0 := by
      injection h2
    have hwn4 : normalizeWeights [1, 1, 1, 1] = [1/4, 1/4, 1/4, 1/4] := by
      simp only [normalizeWeights, List.map, List.sum_cons, List.sum_nil]
      norm_num
    rw [hwn4] at h3
    simp only [List.dropLast, List.zipWith_cons_cons, List.zipWith_nil_right,
      List.map_cons, List.map_nil, List.sum_cons, List.sum_nil] at h3
    rw [Real.sqrt_eq_zero'] at h3
    norm_num at h3

/-! ## Fit-mode normalization
(src/spine_liver_functions.py, lines 83-109, the branch in which the
statistics are computed from the graph itself) -/

/-- Attribute column `d` of a matrix (`axis=0` reductions act per column). -/
def colD {α : Type} [Zero α] (M : List (List (EF α))) (d : ℕ) : List (EF α) :=
  M.map (fun r => r.getD d (EF.fin 0))

/-- `matrix.mean(axis=0)`: per-dimension mean, cast to the real-valued
statistics vector. -/
noncomputable def fitMean (M : List (List (EF ℚ))) : List (EF ℝ) :=
  (List.range (M.headD []).length).map (fun d => EF.toR (EF.lmean (colD M d)))

/-- `matrix.std(axis=0)`: per-dimension population standard deviation, the
square root of the mean squared deviation from the column mean. -/
noncomputable def fitStd (M : List (List (EF ℚ))) : List (EF ℝ) :=
  (List.range (M.headD []).length).map (fun d =>
    EF.sqrtR (EF.toR (EF.lmean
      ((colD M d).map (fun x => EF.sq (EF.sub x (EF.lmean (colD M d))))))))

/-- `normalize_graph(graph)` with no statistics supplied
(src/spine_liver_functions.py lines 83-109): compute the vertex mean and
std from the graph itself, replace zero stds by 1, standardize the vertex
matrix, do the same for the edge matrix when it is non-empty, and return
the graph together with the (fixed) statistics.  When the edge matrix is
empty the edge statistics remain unset (`None` in the source; empty lists
here). -/
noncomputable def normalize_graph_fit (g : SRG ℚ) :
    SRG ℝ × List (EF ℝ) × List (EF ℝ) × List (EF ℝ) × List (EF ℝ) :=
  let mv := fitMean g.vertices
  let sv := fixStd (fitStd g.vertices)
  let vertices := (g.vertices.map (List.map EF.toR)).map (normalizeRow mv sv)
  if 0 < g.edges.length then
    let me := fitMean g.edges
    let se := fixStd (fitStd g.edges)
    (⟨vertices, (g.edges.map (List.map EF.toR)).map (normalizeRow me se)⟩,
      mv, sv, me, se)
  else
    (⟨vertices, g.edges.map (List.map EF.toR)⟩, mv, sv, [], [])

/-- Per-dimension mean of a real-valued matrix (for stating the claimed
post-normalization statistics). -/
noncomputable def colMeanR (M : List (List (EF ℝ))) (d : ℕ) : EF ℝ :=
  EF.lmean (colD M d)

/-- Per-dimension population standard deviation of a real-valued matrix. -/
noncomputable def colStdR (M : List (List (EF ℝ))) (d : ℕ) : EF ℝ :=
  EF.sqrtR (EF.lmean
    ((colD M d).map (fun x => EF.sq (EF.sub x (colMeanR M d)))))

section FitEvalLemmas

theorem getD_map_total {β γ : Type} (f : β → γ) (l : List β) (d : ℕ) (d₀ : β) :
    (l.map f).getD d (f d₀) = f (l.getD d d₀) := by
  induction l generalizing d with
  | nil => cases d <;> rfl
  | cons x t ih =>
      cases d with
      | zero => rfl
      | succ m => simpa using ih m

theorem lmean_map_fin {α : Type} [LinearOrderedField α] [DecidableEq α]
    [∀ x y : α, Decidable (x < y)] (l : List α) (hl : l ≠ []) :
    EF.lmean (l.map EF.fin) = EF.fin (l.sum / l.length) := by
  rw [EF.lmean, lsum_map_fin, List.length_map, EF.div]
  rw [if_neg (by
    intro hc
    exact hl (List.length_eq_zero.mp (Nat.cast_eq_zero.mp hc)))]

theorem cast_list_sum (l : List ℚ) :
    ((l.sum : ℚ) : ℝ) = (l.map (fun q : ℚ => (q : ℝ))).sum := by
  induction l with
  | nil => simp
  | cons x t ih => simp [ih]

end FitEvalLemmas

/-- Rational attribute column `d` of a rational matrix. -/
def qcol (Q : List (List ℚ)) (d : ℕ) : List ℚ :=
  Q.map (fun r => r.getD d 0)

/-- Mean of a list of field elements. -/
def lMean {α : Type} [LinearOrderedField α] (l : List α) : α :=
  l.sum / l.length

/-- Population variance of a list of field elements. -/
def lVar {α : Type} [LinearOrderedField α] (l : List α) : α :=
  lMean (l.map (fun x => (x - lMean l) * (x - lMean l)))

/-- The effective per-dimension divisor after the zero-std substitution. -/
noncomputable def sFix (v : ℚ) : ℝ :=
  if v = 0 then 1 else Real.sqrt (v : ℝ)

section FitColumnLemmas

theorem lVar_nonneg (l : List ℚ) : 0 ≤ lVar l := by
  rw [lVar, lMean]
  apply div_nonneg
  · apply List.sum_nonneg
    intro x hx
    rcases List.mem_map.mp hx with ⟨y, _, rfl⟩
    exact mul_self_nonneg _
  · exact Nat.cast_nonneg _

theorem sFix_ne_zero (v : ℚ) (hv : 0 ≤ v) : sFix v ≠ 0 := by
  rw [sFix]
  by_cases h : v = 0
  · rw [if_pos h]; norm_num
  · rw [if_neg h]
    have hvpos : (0 : ℝ) < (v : ℝ) := by
      rw [show ((0 : ℝ) = ((0 : ℚ) : ℝ)) by norm_num]
      exact_mod_cast lt_of_le_of_ne hv (Ne.symm h)
    exact ne_of_gt (Real.sqrt_pos.mpr hvpos)

theorem colD_fin (Q : List (List ℚ)) (d : ℕ) :
    colD (Q.map (List.map EF.fin)) d = (qcol Q d).map EF.fin := by
  rw [colD, qcol, List.map_map, List.map_map]
  apply List.map_congr_left
  intro r _
  exact getD_map_total EF.fin r d 0

theorem headD_length (Q : List (List ℚ)) (m : ℕ) (hne : Q ≠ [])
    (hr : ∀ r ∈ Q, r.length = m) :
    ((Q.map (List.map EF.fin)).headD []).length = m := by
  cases Q with
  | nil => exact absurd rfl hne
  | cons q t =>
      simp only [List.map_cons, List.headD_cons, List.length_map]
      exact hr q (List.mem_cons_self q t)

theorem qcol_ne_nil (Q : List (List ℚ)) (d : ℕ) (hne : Q ≠ []) :
    qcol Q d ≠ [] := by
  cases Q with
  | nil => exact absurd rfl hne
  | cons q t => simp [qcol]

theorem fitMean_getD (Q : List (List ℚ)) (m d : ℕ) (hne : Q ≠ [])
    (hr : ∀ r ∈ Q, r.length = m) (hd : d < m) :
    (fitMean (Q.map (List.map EF.fin))).getD d (EF.fin 0)
      = EF.fin ((lMean (qcol Q d) : ℚ) : ℝ) := by
  rw [fitMean, headD_length Q m hne hr]
  rw [getD_map_lt _ (List.range m) d (by simpa using hd) (EF.fin 0) 0]
  rw [List.getD_eq_getElem?_getD, List.getElem?_eq_getElem (by simpa using hd),
    Option.getD_some, List.getElem_range]
  rw [colD_fin, lmean_map_fin _ (qcol_ne_nil Q d hne)]
  rfl

theorem map_sq_sub_fin_col (l : List ℚ) (μ : ℚ) :
    (l.map EF.fin).map (fun x => EF.sq (EF.sub x (EF.fin μ)))
      = (l.map (fun x => (x - μ) * (x - μ))).map EF.fin := by
  rw [List.map_map, List.map_map]
  apply List.map_congr_left
  intro x _
  rfl

theorem fitStd_getD (Q : List (List ℚ)) (m d : ℕ) (hne : Q ≠ [])
    (hr : ∀ r ∈ Q, r.length = m) (hd : d < m) :
    (fitStd (Q.map (List.map EF.fin))).getD d (EF.fin 0)
      = EF.fin (Real.sqrt ((lVar (qcol Q d) : ℚ) : ℝ)) := by
  rw [fitStd, headD_length Q m hne hr]
  rw [getD_map_lt _ (List.range m) d (by simpa using hd) (EF.fin 0) 0]
  rw [List.getD_eq_getElem?_getD, List.getElem?_eq_getElem (by simpa using hd),
    Option.getD_some, List.getElem_range]
  rw [colD_fin, lmean_map_fin _ (qcol_ne_nil Q d hne)]
  rw [map_sq_sub_fin_col (qcol Q d) ((qcol Q d).sum / ((qcol Q d).length : ℚ))]
  rw [lmean_map_fin _ (by
    intro hc
    exact qcol_ne_nil Q d hne (List.map_eq_nil_iff.mp hc))]
  have hv : (((qcol Q d).map (fun x =>
      (x - (qcol Q d).sum / ((qcol Q d).length : ℚ))
        * (x - (qcol Q d).sum / ((qcol Q d).length : ℚ)))).sum
      / ((((qcol Q d).map (fun x =>
        (x - (qcol Q d).sum / ((qcol Q d).length : ℚ))
          * (x - (qcol Q d).sum / ((qcol Q d).length : ℚ)))).length : ℚ)))
      = lVar (qcol Q d) := rfl
  rw [hv]
  rw [show EF.toR (EF.fin (lVar (qcol Q d))) = EF.fin ((lVar (qcol Q d) : ℚ) : ℝ)
    from rfl]
  rw [sqrtR_fin_of_nonneg (by exact_mod_cast lVar_nonneg (qcol Q d))]

end FitColumnLemmas

section NormFitLemmas

theorem castM_eq (Q : List (List ℚ)) :
    (Q.map (List.map EF.fin)).map (List.map EF.toR) = Q.map finRow := by
  rw [List.map_map]
  apply List.map_congr_left
  intro r _
  show List.map EF.toR (List.map EF.fin r) = finRow r
  rw [List.map_map, finRow]
  apply List.map_congr_left
  intro q _
  rfl

theorem fitMean_length (Q : List (List ℚ)) (m : ℕ) (hne : Q ≠ [])
    (hr : ∀ r ∈ Q, r.length = m) :
    (fitMean (Q.map (List.map EF.fin))).length = m := by
  rw [fitMean, headD_length Q m hne hr, List.length_map, List.length_range]

theorem fitStd_length (Q : List (List ℚ)) (m : ℕ) (hne : Q ≠ [])
    (hr : ∀ r ∈ Q, r.length = m) :
    (fitStd (Q.map (List.map EF.fin))).length = m := by
  rw [fitStd, headD_length Q m hne hr, List.length_map, List.length_range]

theorem fixStd_fitStd_getD (Q : List (List ℚ)) (m d : ℕ) (hne : Q ≠ [])
    (hr : ∀ r ∈ Q, r.length = m) (hd : d < m) :
    (fixStd (fitStd (Q.map (List.map EF.fin)))).getD d (EF.fin 0)
      = EF.fin (sFix (lVar (qcol Q d))) := by
  rw [fixStd, getD_map_lt _ _ d (by rw [fitStd_length Q m hne hr]; exact hd)
    (EF.fin 0) (EF.fin 0)]
  rw [fitStd_getD Q m d hne hr hd]
  by_cases hv : lVar (qcol Q d) = 0
  · have hz : Real.sqrt ((lVar (qcol Q d) : ℚ) : ℝ) = 0 := by
      rw [hv]
      norm_num
    rw [hz, if_pos rfl, sFix, if_pos hv]
  · have hnz : Real.sqrt ((lVar (qcol Q d) : ℚ) : ℝ) ≠ 0 := by
      apply ne_of_gt
      apply Real.sqrt_pos.mpr
      exact_mod_cast lt_of_le_of_ne (lVar_nonneg (qcol Q d)) (Ne.symm hv)
    rw [if_neg (fun hc => hnz (by injection hc)), sFix, if_neg hv]

theorem normRow_getD (Q : List (List ℚ)) (m d : ℕ) (hne : Q ≠ [])
    (hr : ∀ r ∈ Q, r.length = m) (hd : d < m) (r : List ℚ) (hrm : r.length = m) :
    (normalizeRow (fitMean (Q.map (List.map EF.fin)))
        (fixStd (fitStd (Q.map (List.map EF.fin)))) (finRow r)).getD d (EF.fin 0)
      = EF.fin ((((r.getD d 0 : ℚ) : ℝ) - ((lMean (qcol Q d) : ℚ) : ℝ))
          / sFix (lVar (qcol Q d))) := by
  rw [normalizeRow]
  rw [getD_zipWith EF.div _ _ d
    (by
      rw [List.length_zipWith, finRow, List.length_map, hrm,
        fitMean_length Q m hne hr]
      omega)
    (by
      rw [fixStd, List.length_map, fitStd_length Q m hne hr]
      exact hd)
    (EF.fin 0) (EF.fin 0) (EF.fin 0)]
  rw [getD_zipWith EF.sub _ _ d
    (by rw [finRow, List.length_map, hrm]; exact hd)
    (by rw [fitMean_length Q m hne hr]; exact hd)
    (EF.fin 0) (EF.fin 0) (EF.fin 0)]
  rw [show (finRow r).getD d (EF.fin 0)
      = EF.fin ((r.getD d 0 : ℚ) : ℝ) from by
    rw [finRow]
    exact getD_map_lt _ r d (by omega) (EF.fin 0) 0]
  rw [fitMean_getD Q m d hne hr hd, fixStd_fitStd_getD Q m d hne hr hd]
  rw [show EF.sub (EF.fin ((r.getD d 0 : ℚ) : ℝ)) (EF.fin ((lMean (qcol Q d) : ℚ) : ℝ))
      = EF.fin (((r.getD d 0 : ℚ) : ℝ) - ((lMean (qcol Q d) : ℚ) : ℝ)) from rfl]
  rw [EF.div]
  rw [if_neg (sFix_ne_zero _ (lVar_nonneg _))]

theorem normFit_colD (Q : List (List ℚ)) (m d : ℕ) (hne : Q ≠ [])
    (hr : ∀ r ∈ Q, r.length = m) (hd : d < m) :
    colD (((Q.map (List.map EF.fin)).map (List.map EF.toR)).map
        (normalizeRow (fitMean (Q.map (List.map EF.fin)))
          (fixStd (fitStd (Q.map (List.map EF.fin)))))) d
      = ((qcol Q d).map (fun x : ℚ =>
          (((x : ℝ) - ((lMean (qcol Q d) : ℚ) : ℝ)) / sFix (lVar (qcol Q d))))).map
          EF.fin := by
  have hstep : ∀ f : ℚ → ℝ,
      ((qcol Q d).map f).map EF.fin = Q.map (fun r => EF.fin (f (r.getD d 0))) := by
    intro f
    rw [qcol, List.map_map, List.map_map]
    rfl
  rw [hstep]
  rw [castM_eq, colD, List.map_map, List.map_map]
  apply List.map_congr_left
  intro r hrQ
  exact normRow_getD Q m d hne hr hd r (hr r hrQ)

end NormFitLemmas

section NormStatsLemmas

theorem sum_map_div_right (l : List ℝ) (c : ℝ) :
    (l.map (fun x => x / c)).sum = l.sum / c := by
  induction l with
  | nil => simp
  | cons a t ih => simp [ih, add_div]

theorem sum_map_sub_div (rl : List ℝ) (c s : ℝ) :
    (rl.map (fun y => (y - c) / s)).sum = (rl.sum - rl.length * c) / s := by
  induction rl with
  | nil => simp
  | cons x t ih =>
      simp only [List.map_cons, List.sum_cons, ih, List.length_cons]
      rw [div_add_div_same]
      congr 1
      push_cast
      ring

theorem cast_mean (l : List ℚ) :
    ((lMean l : ℚ) : ℝ) = (l.map (fun q : ℚ => (q : ℝ))).sum / (l.length : ℝ) := by
  rw [lMean, Rat.cast_div, cast_list_sum]
  norm_cast

theorem sum_map_centered (l : List ℚ) (s : ℝ) (hl : l ≠ []) :
    (l.map (fun x : ℚ => (((x : ℝ) - ((lMean l : ℚ) : ℝ)) / s))).sum = 0 := by
  have hcomp : (l.map (fun x : ℚ => (((x : ℝ) - ((lMean l : ℚ) : ℝ)) / s)))
      = (l.map (fun q : ℚ => (q : ℝ))).map
          (fun y => (y - ((lMean l : ℚ) : ℝ)) / s) := by
    rw [List.map_map]
    rfl
  rw [hcomp, sum_map_sub_div, cast_mean l, List.length_map]
  have hn : ((l.length : ℕ) : ℝ) ≠ 0 := by
    rw [Nat.cast_ne_zero]
    intro hc
    exact hl (List.length_eq_zero.mp hc)
  rw [mul_comm, div_mul_cancel₀ _ hn, sub_self, zero_div]

theorem map_sq_sub_fin_gen {α : Type} [LinearOrderedField α] (l : List α) (μ : α) :
    (l.map EF.fin).map (fun x => EF.sq (EF.sub x (EF.fin μ)))
      = (l.map (fun x => (x - μ) * (x - μ))).map EF.fin := by
  rw [List.map_map, List.map_map]
  apply List.map_congr_left
  intro x _
  rfl

theorem sq_div_list (l : List ℚ) (c s : ℝ) :
    ((l.map (fun x : ℚ => (((x : ℝ) - c) / s))).map (fun y => (y - 0) * (y - 0)))
      = (l.map (fun x : ℚ => (((x : ℝ) - c) * ((x : ℝ) - c)))).map
          (fun t => t / (s * s)) := by
  rw [List.map_map, List.map_map]
  apply List.map_congr_left
  intro x _
  show (((x : ℝ) - c) / s - 0) * (((x : ℝ) - c) / s - 0)
    = (((x : ℝ) - c) * ((x : ℝ) - c)) / (s * s)
  rw [sub_zero, div_mul_div_comm]

theorem cast_var (l : List ℚ) :
    ((lVar l : ℚ) : ℝ)
      = (l.map (fun x : ℚ => (((x : ℝ) - ((lMean l : ℚ) : ℝ))
          * ((x : ℝ) - ((lMean l : ℚ) : ℝ))))).sum / (l.length : ℝ) := by
  rw [show lVar l = ((l.map (fun x => (x - lMean l) * (x - lMean l))).sum
      / (((l.map (fun x => (x - lMean l) * (x - lMean l))).length : ℕ) : ℚ)) from rfl]
  rw [Rat.cast_div, cast_list_sum, List.map_map, List.length_map]
  congr 1
  · apply congrArg List.sum
    apply List.map_congr_left
    intro x _
    show ((((x - lMean l) * (x - lMean l) : ℚ)) : ℝ)
      = ((x : ℝ) - ((lMean l : ℚ) : ℝ)) * ((x : ℝ) - ((lMean l : ℚ) : ℝ))
    push_cast
    ring

theorem normFit_colMean (Q : List (List ℚ)) (m d : ℕ) (hne : Q ≠ [])
    (hr : ∀ r ∈ Q, r.length = m) (hd : d < m) :
    colMeanR (((Q.map (List.map EF.fin)).map (List.map EF.toR)).map
        (normalizeRow (fitMean (Q.map (List.map EF.fin)))
          (fixStd (fitStd (Q.map (List.map EF.fin)))))) d = EF.fin 0 := by
  rw [colMeanR, normFit_colD Q m d hne hr hd]
  rw [lmean_map_fin _ (by
    intro hc
    exact qcol_ne_nil Q d hne (List.map_eq_nil_iff.mp hc))]
  rw [sum_map_centered (qcol Q d) _ (qcol_ne_nil Q d hne), zero_div]

theorem normFit_colStd (Q : List (List ℚ)) (m d : ℕ) (hne : Q ≠ [])
    (hr : ∀ r ∈ Q, r.length = m) (hd : d < m) :
    colStdR (((Q.map (List.map EF.fin)).map (List.map EF.toR)).map
        (normalizeRow (fitMean (Q.map (List.map EF.fin)))
          (fixStd (fitStd (Q.map (List.map EF.fin)))))) d
      = EF.fin (Real.sqrt (((lVar (qcol Q d) : ℚ) : ℝ)
          / (sFix (lVar (qcol Q d)) * sFix (lVar (qcol Q d))))) := by
  rw [colStdR, normFit_colMean Q m d hne hr hd, normFit_colD Q m d hne hr hd]
  rw [map_sq_sub_fin_gen]
  rw [lmean_map_fin _ (by
    intro hc
    rcases List.map_eq_nil_iff.mp hc with hc2
    exact qcol_ne_nil Q d hne (List.map_eq_nil_iff.mp hc2))]
  rw [sqrtR_fin_of_nonneg (by
    apply div_nonneg
    · apply List.sum_nonneg
      intro x hx
      rcases List.mem_map.mp hx with ⟨y, _, rfl⟩
      rcases List.mem_map.mp (by assumption : y ∈ _) with _
      nlinarith [sq_nonneg (y - 0)]
    · exact Nat.cast_nonneg _)]
  congr 1
  rw [sq_div_list, sum_map_div_right, List.length_map, List.length_map]
  rw [div_right_comm]
  rw [← cast_var (qcol Q d)]

end NormStatsLemmas

section NormFitStats

theorem normFit_stats (Q : List (List ℚ)) (m d : ℕ) (hne : Q ≠ [])
    (hr : ∀ r ∈ Q, r.length = m) (hd : d < m) :
    colMeanR (((Q.map (List.map EF.fin)).map (List.map EF.toR)).map
        (normalizeRow (fitMean (Q.map (List.map EF.fin)))
          (fixStd (fitStd (Q.map (List.map EF.fin)))))) d = EF.fin 0 ∧
    (lVar (qcol Q d) ≠ 0 →
      colStdR (((Q.map (List.map EF.fin)).map (List.map EF.toR)).map
        (normalizeRow (fitMean (Q.map (List.map EF.fin)))
          (fixStd (fitStd (Q.map (List.map EF.fin)))))) d = EF.fin 1) ∧
    (lVar (qcol Q d) = 0 →
      colStdR (((Q.map (List.map EF.fin)).map (List.map EF.toR)).map
        (normalizeRow (fitMean (Q.map (List.map EF.fin)))
          (fixStd (fitStd (Q.map (List.map EF.fin)))))) d = EF.fin 0) := by
  refine ⟨normFit_colMean Q m d hne hr hd, ?_, ?_⟩
  · intro hv
    rw [normFit_colStd Q m d hne hr hd]
    rw [sFix, if_neg hv]
    rw [Real.mul_self_sqrt (by exact_mod_cast lVar_nonneg (qcol Q d))]
    rw [div_self (by exact_mod_cast hv)]
    rw [Real.sqrt_one]
  · intro hv
    rw [normFit_colStd Q m d hne hr hd, hv]
    norm_num

theorem normalize_graph_fit_vertices (g : SRG ℚ) :
    (normalize_graph_fit g).1.vertices
      = (g.vertices.map (List.map EF.toR)).map
          (normalizeRow (fitMean g.vertices) (fixStd (fitStd g.vertices))) := by
  rw [normalize_graph_fit]
  by_cases h : 0 < g.edges.length
  · rw [if_pos h]
  · rw [if_neg h]

theorem normalize_graph_fit_edges (g : SRG ℚ) (h : 0 < g.edges.length) :
    (normalize_graph_fit g).1.edges
      = (g.edges.map (List.map EF.toR)).map
          (normalizeRow (fitMean g.edges) (fixStd (fitStd g.edges))) := by
  rw [normalize_graph_fit, if_pos h]

theorem fitStd_zero_iff (Q : List (List ℚ)) (m d : ℕ) (hne : Q ≠ [])
    (hr : ∀ r ∈ Q, r.length = m) (hd : d < m) :
    (fitStd (Q.map (List.map EF.fin))).getD d (EF.fin 0) = EF.fin 0
      ↔ lVar (qcol Q d) = 0 := by
  rw [fitStd_getD Q m d hne hr hd]
  constructor
  · intro h
    have h2 : Real.sqrt ((lVar (qcol Q d) : ℚ) : ℝ) = 0 := by injection h
    rw [Real.sqrt_eq_zero'] at h2
    have h3 : ((lVar (qcol Q d) : ℚ) : ℝ) = 0 :=
      le_antisymm h2 (by exact_mod_cast lVar_nonneg (qcol Q d))
    exact_mod_cast h3
  · intro h
    rw [h]
    norm_num

end NormFitStats

/-- C7 (amended): applying a graph's own fitted statistics to itself
(`normalize_graph` with no statistics supplied) yields matrices in which
every attribute dimension has mean 0; a dimension's standard deviation
becomes 1 exactly when its original standard deviation was nonzero, while a
constant (zero-std) dimension — whose std the code silently replaces by 1 —
keeps standard deviation 0, not 1.  The same holds for the edge matrix when
it is non-empty. -/
theorem C7_self_normalization (g : SRG ℚ) (Q E : List (List ℚ)) (mV mE : ℕ)
    (hgv : g.vertices = Q.map (List.map EF.fin))
    (hge : g.edges = E.map (List.map EF.fin))
    (hQne : Q ≠ []) (hQr : ∀ r ∈ Q, r.length = mV)
    (hEr : ∀ r ∈ E, r.length = mE) :
    (∀ d, d < mV →
      colMeanR (normalize_graph_fit g).1.vertices d = EF.fin 0 ∧
      ((fitStd g.vertices).getD d (EF.fin 0) ≠ EF.fin 0 →
        colStdR (normalize_graph_fit g).1.vertices d = EF.fin 1) ∧
      ((fitStd g.vertices).getD d (EF.fin 0) = EF.fin 0 →
        colStdR (normalize_graph_fit g).1.vertices d = EF.fin 0)) ∧
    (E ≠ [] → ∀ d, d < mE →
      colMeanR (normalize_graph_fit g).1.edges d = EF.fin 0 ∧
      ((fitStd g.edges).getD d (EF.fin 0) ≠ EF.fin 0 →
        colStdR (normalize_graph_fit g).1.edges d = EF.fin 1) ∧
      ((fitStd g.edges).getD d (EF.fin 0) = EF.fin 0 →
        colStdR (normalize_graph_fit g).1.edges d = EF.fin 0)) := by
  constructor
  · intro d hd
    rw [normalize_graph_fit_vertices, hgv]
    rcases normFit_stats Q mV d hQne hQr hd with ⟨h1, h2, h3⟩
    refine ⟨h1, ?_, ?_⟩
    · intro hstd
      exact h2 (fun hv => hstd ((fitStd_zero_iff Q mV d hQne hQr hd).mpr hv))
    · intro hstd
      exact h3 ((fitStd_zero_iff Q mV d hQne hQr hd).mp hstd)
  · intro hEne d hd
    have hlen : 0 < g.edges.length := by
      rw [hge, List.length_map]
      cases E with
      | nil => exact absurd rfl hEne
      | cons e t => simp
    rw [normalize_graph_fit_edges g hlen, hge]
    rcases normFit_stats E mE d hEne hEr hd with ⟨h1, h2, h3⟩
    refine ⟨h1, ?_, ?_⟩
    · intro hstd
      exact h2 (fun hv => hstd ((fitStd_zero_iff E mE d hEne hEr hd).mpr hv))
    · intro hstd
      exact h3 ((fitStd_zero_iff E mE d hEne hEr hd).mp hstd)

/-- Witness for the amended C7: a two-vertex, one-dimension graph with
nonzero variance; after self-normalization the dimension has mean 0. -/
theorem C7_self_normalization_witness :
    ([[ (0 : ℚ)], [(2 : ℚ)]] ≠ ([] : List (List ℚ))) ∧
    colMeanR (normalize_graph_fit
        (SRG.mk ([[(0 : ℚ)], [(2 : ℚ)]].map (List.map EF.fin)) [])).1.vertices 0
      = EF.fin 0 := by
  have h := C7_self_normalization
    (SRG.mk ([[(0 : ℚ)], [(2 : ℚ)]].map (List.map EF.fin)) [])
    [[(0 : ℚ)], [(2 : ℚ)]] [] 1 5 rfl rfl (by decide) (by decide) (by decide)
  exact ⟨by decide, (h.1 0 (by decide)).1⟩

/-- Counterexample to C7 as stated: the one-vertex graph with the single
attribute row `[5]` is constant in its only dimension, so its fitted std is
0, the code substitutes 1, and after self-normalization the dimension's
standard deviation is 0 — not 1 as the claim asserts for every dimension. -/
theorem C7_zero_variance_counterexample :
    colStdR (normalize_graph_fit (SRG.mk [[EF.fin (5 : ℚ)]] [])).1.vertices 0
      = EF.fin 0 ∧
    (EF.fin (0 : ℝ)) ≠ EF.fin 1 := by
  constructor
  · rw [normalize_graph_fit_vertices]
    have hvar : lVar (qcol [[(5 : ℚ)]] 0) = 0 := by
      norm_num [lVar, lMean, qcol]
    have h := (normFit_stats [[(5 : ℚ)]] 1 0 (by decide) (by decide) (by decide)).2.2
      hvar
    exact h
  · intro hc
    have : (0 : ℝ) = 1 := by injection hc
    norm_num at this

/-! ## Store-passing model of the in-place behaviour of `normalize_graph`
(src/spine_liver_functions.py, lines 83-109, with all statistics supplied).
Numpy arrays and the SRG object live in a store; the Python function
mutates the caller's `std` arrays (`std[std == 0] = 1`), allocates fresh
standardized arrays, rebinds the graph object's `vertices` (and, when the
edge matrix is non-empty, `edges`) fields to them, and returns the very
graph object it was given. -/

/-- The zero-std substitution on a raw statistics vector. -/
def fixVec (s : List ℚ) : List ℚ :=
  s.map (fun x => if x = 0 then 1 else x)

/-- Standardize a matrix row-wise: `(M - mean) / std`, elementwise. -/
def normMat (m s : List ℚ) (M : List (List ℚ)) : List (List ℚ) :=
  M.map (fun r =>
    List.zipWith (fun a b => a / b) (List.zipWith (fun a b => a - b) r m) s)

/-- A Python `SRG` object: references to its vertex and edge arrays. -/
structure PyGraph : Type where
  vertices : ℕ
  edges : ℕ
deriving DecidableEq

/-- The heap: matrix arrays, statistics vectors and graph objects, each
addressed by index. -/
structure Store : Type where
  mats : List (List (List ℚ))
  vecs : List (List ℚ)
  graphs : List PyGraph
deriving DecidableEq

/-- `normalize_graph(graph, mean_vertex, std_vertex, mean_edge, std_edge)`
as a store transformer (src/spine_liver_functions.py lines 83-109): read
the vertex array, fix the caller's `std_vertex` in place, allocate the
standardized vertex array and rebind the graph's `vertices` field; then,
only if the edge array is non-empty, do the same for the edges; finally
return the reference to the very graph object that was passed in. -/
def normalize_graphS (st : Store) (g mvr svr mer ser : ℕ) : Store × ℕ :=
  let gobj := st.graphs.getD g ⟨0, 0⟩
  let vertices := st.mats.getD gobj.vertices []
  let vecs1 := st.vecs.set svr (fixVec (st.vecs.getD svr []))
  let newV := normMat (vecs1.getD mvr []) (vecs1.getD svr []) vertices
  let vref := st.mats.length
  let mats1 := st.mats ++ [newV]
  let graphs1 := st.graphs.set g ⟨vref, gobj.edges⟩
  let edges := mats1.getD gobj.edges []
  if 0 < edges.length then
    let vecs2 := vecs1.set ser (fixVec (vecs1.getD ser []))
    let newE := normMat (vecs2.getD mer []) (vecs2.getD ser []) edges
    (⟨mats1 ++ [newE], vecs2, graphs1.set g ⟨vref, mats1.length⟩⟩, g)
  else
    (⟨mats1, vecs1, graphs1⟩, g)

section StoreLemmas

theorem getD_set_self {β : Type} (l : List β) (i : ℕ) (h : i < l.length)
    (a d : β) : (l.set i a).getD i d = a := by
  induction l generalizing i with
  | nil => simp at h
  | cons x t ih =>
      cases i with
      | zero => rfl
      | succ m => exact ih m (by simpa using Nat.lt_of_succ_lt_succ h)

theorem getD_set_ne {β : Type} (l : List β) (i j : ℕ) (h : i ≠ j)
    (a d : β) : (l.set i a).getD j d = l.getD j d := by
  induction l generalizing i j with
  | nil => rfl
  | cons x t ih =>
      cases i with
      | zero =>
          cases j with
          | zero => exact absurd rfl h
          | succ n => rfl
      | succ m =>
          cases j with
          | zero => rfl
          | succ n => exact ih m n (fun hc => h (by omega))

theorem getD_concat_self {β : Type} (l : List β) (x d : β) :
    (l ++ [x]).getD l.length d = x := by
  induction l with
  | nil => rfl
  | cons a t ih => simpa using ih

theorem getD_append_lt {β : Type} (l l2 : List β) (i : ℕ) (h : i < l.length)
    (d : β) : (l ++ l2).getD i d = l.getD i d := by
  induction l generalizing i with
  | nil => simp at h
  | cons a t ih =>
      cases i with
      | zero => rfl
      | succ m => simpa using ih m (by simpa using Nat.lt_of_succ_lt_succ h)

end StoreLemmas

/-- C10 (amended): with all statistics supplied, `normalize_graph` returns
the very graph object it was given; the graph's `vertices` field is rebound
to a freshly allocated standardized array (so the un-normalized vertex
matrix is no longer reachable through the graph); the caller's `std_vertex`
array is mutated in place, every 0 entry overwritten with 1; and the
caller's `std_edge` array is likewise mutated — but only when the edge
matrix is non-empty: with an empty edge matrix `std_edge` is left
untouched. -/
theorem C10_normalize_in_place (st : Store) (g mvr svr mer ser : ℕ)
    (hg : g < st.graphs.length)
    (hsv : svr < st.vecs.length) (hse : ser < st.vecs.length)
    (hgv : (st.graphs.getD g ⟨0, 0⟩).vertices < st.mats.length)
    (hge : (st.graphs.getD g ⟨0, 0⟩).edges < st.mats.length)
    (h1 : mvr ≠ svr) (h2 : svr ≠ ser) (h3 : mer ≠ svr) (h4 : mer ≠ ser) :
    (normalize_graphS st g mvr svr mer ser).2 = g ∧
    (normalize_graphS st g mvr svr mer ser).1.vecs.getD svr []
      = fixVec (st.vecs.getD svr []) ∧
    st.mats.length
      ≤ ((normalize_graphS st g mvr svr mer ser).1.graphs.getD g ⟨0, 0⟩).vertices ∧
    (normalize_graphS st g mvr svr mer ser).1.mats.getD
        (((normalize_graphS st g mvr svr mer ser).1.graphs.getD g ⟨0, 0⟩).vertices) []
      = normMat (st.vecs.getD mvr []) (fixVec (st.vecs.getD svr []))
          (st.mats.getD ((st.graphs.getD g ⟨0, 0⟩).vertices) []) ∧
    (0 < (st.mats.getD ((st.graphs.getD g ⟨0, 0⟩).edges) []).length →
      (normalize_graphS st g mvr svr mer ser).1.vecs.getD ser []
        = fixVec (st.vecs.getD ser []) ∧
      (normalize_graphS st g mvr svr mer ser).1.mats.getD
          (((normalize_graphS st g mvr svr mer ser).1.graphs.getD g ⟨0, 0⟩).edges) []
        = normMat (st.vecs.getD mer []) (fixVec (st.vecs.getD ser []))
            (st.mats.getD ((st.graphs.getD g ⟨0, 0⟩).edges) [])) ∧
    ((st.mats.getD ((st.graphs.getD g ⟨0, 0⟩).edges) []).length = 0 →
      (normalize_graphS st g mvr svr mer ser).1.vecs.getD ser []
        = st.vecs.getD ser []) := by
  have hvm : (st.vecs.set svr (fixVec (st.vecs.getD svr []))).getD mvr []
      = st.vecs.getD mvr [] := getD_set_ne _ _ _ (Ne.symm h1) _ _
  have hvs : (st.vecs.set svr (fixVec (st.vecs.getD svr []))).getD svr []
      = fixVec (st.vecs.getD svr []) := getD_set_self _ _ (by simpa using hsv) _ _
  have hvse : (st.vecs.set svr (fixVec (st.vecs.getD svr []))).getD ser []
      = st.vecs.getD ser [] := getD_set_ne _ _ _ h2 _ _
  have hedgeread : (st.mats ++ [normMat (st.vecs.getD mvr [])
        (fixVec (st.vecs.getD svr []))
        (st.mats.getD ((st.graphs.getD g ⟨0, 0⟩).vertices) [])]).getD
      ((st.graphs.getD g ⟨0, 0⟩).edges) []
      = st.mats.getD ((st.graphs.getD g ⟨0, 0⟩).edges) [] :=
    getD_append_lt _ _ _ hge _
  by_cases hedge : 0 < (st.mats.getD ((st.graphs.getD g ⟨0, 0⟩).edges) []).length
  · simp only [normalize_graphS]
    rw [hvm, hvs, hvse, hedgeread, if_pos hedge]
    dsimp only
    rw [getD_set_ne _ _ _ (Ne.symm h4) _ _]
    rw [getD_set_ne _ _ _ (Ne.symm h3) _ _]
    rw [getD_set_ne _ _ _ (Ne.symm h2) _ _]
    rw [hvs]
    rw [getD_set_self _ _ (by simpa using hg) _ _]
    rw [getD_set_self _ _ (by simpa using hse) _ _]
    dsimp only
    refine ⟨rfl, rfl, Nat.le_refl _, ?_, ?_, ?_⟩
    · rw [getD_append_lt _ _ _ (by simp) _, getD_concat_self]
    · intro _
      exact ⟨rfl, by rw [getD_concat_self]⟩
    · intro hc
      omega
  · simp only [normalize_graphS]
    rw [hvm, hvs, hvse, hedgeread, if_neg hedge]
    dsimp only
    rw [hvs]
    rw [getD_set_self _ _ (by simpa using hg) _ _]
    dsimp only
    refine ⟨rfl, rfl, Nat.le_refl _, ?_, ?_, ?_⟩
    · rw [getD_concat_self]
    · intro hc
      exact absurd hc hedge
    · intro _
      exact hvse

/-- C10 witness: a store with graph 0 holding vertex matrix `[[5]]` (ref 0)
and non-empty edge matrix `[[3]]` (ref 1), statistics vectors `[0]` at refs
0 (mean_vertex), 1 (std_vertex), 2 (mean_edge), 3 (std_edge); all the
hypotheses of `C10_normalize_in_place` hold by computation. -/
theorem C10_normalize_in_place_witness :
    (normalize_graphS ⟨[[[5]], [[3]]], [[0], [0], [0], [0]], [⟨0, 1⟩]⟩
      0 0 1 2 3).2 = 0 :=
  (C10_normalize_in_place ⟨[[[5]], [[3]]], [[0], [0], [0], [0]], [⟨0, 1⟩]⟩
    0 0 1 2 3 (by decide) (by decide) (by decide) (by decide) (by decide)
    (by decide) (by decide) (by decide) (by decide)).1

/-- C10 counterexample to the original claim's "any caller-supplied std
array is itself modified in place wherever it contains a 0 entry": graph 0
has an empty edge matrix (ref 1), the caller's `std_edge` vector (ref 3) is
`[0]` — it contains a 0 entry, and the claimed in-place fix would turn it
into `fixVec [0] = [1]` — yet after the call it is still `[0]`: the
`std_edge[std_edge == 0] = 1` line only runs when the edge matrix is
non-empty (src/spine_liver_functions.py lines 98-104). -/
theorem C10_mutation_counterexample :
    (normalize_graphS ⟨[[[5]], []], [[0], [0], [0], [0]], [⟨0, 1⟩]⟩
      0 0 1 2 3).1.vecs.getD 3 [] = [0] ∧
    fixVec [0] = [(1 : ℚ)] := by
  decide

/-! ## The contiguity-repair while-loop
(src/explorations/2d_full_process.py, lines 125-167).
Per iteration, each super-region still holding the unassigned sentinel -1
scans the labels of its spatial neighbors; a candidate equal to the current
prediction or equal to -1 is skipped, any other is accepted iff its global
cost is strictly below the tracked current cost, which starts at
float('inf'). The final prediction — unchanged when no candidate was
accepted — is written back, and the `while -1 in solution` guard is
re-tested. The cost of a candidate (the build/normalize/cost pipeline of
lines 146-156) is abstracted as a parameter `cost`: the theorems below
quantify over it, so they hold for the code's actual cost in particular. -/

/-- One candidate of the repair scan (lines 140-163): skip a candidate
equal to the current prediction, skip the sentinel -1, otherwise accept
iff its cost is strictly below the tracked current cost. -/
noncomputable def repairStep (cost : ℤ → EF ℝ) (st : ℤ × EF ℝ) (p : ℤ) :
    ℤ × EF ℝ :=
  if p = st.1 then st
  else if p = -1 then st
  else if EF.lt (cost p) st.2 then (p, cost p) else st

/-- The repair body for one super-region (lines 130-167): already-assigned
regions (`solution[s] > -1`) are skipped; otherwise the neighbor-label
candidates are scanned from the current prediction with cost float('inf'),
and the final prediction is written back — still -1 when no candidate was
accepted. -/
noncomputable def repairRegion (cost : ℕ → ℤ → EF ℝ)
    (adjacency : List (ℕ × ℕ)) (sol : List ℤ) (s : ℕ) : List ℤ :=
  if sol.getD s (-1) > -1 then sol
  else sol.set s
    ((neighborLabels adjacency sol s).foldl (repairStep (cost s))
      (sol.getD s (-1), EF.pinf)).1

/-- One iteration of the `while -1 in solution` body (lines 125-167): every
super-region is processed in the fixed worst-first order (`solution_costs`
is not modified inside this loop, so the order is constant). -/
noncomputable def repairPass (cost : ℕ → ℤ → EF ℝ)
    (adjacency : List (ℕ × ℕ)) (order : List ℕ) (sol : List ℤ) : List ℤ :=
  order.foldl (repairRegion cost adjacency) sol

/-- `while -1 in solution` (line 125) as a fuel-indexed loop: `some`
solutions are the loop's only way to finish (the body has no break and no
unresolved-assignment surfacing), `none` means the guard was still true
when the fuel ran out. -/
noncomputable def repairLoop (cost : ℕ → ℤ → EF ℝ)
    (adjacency : List (ℕ × ℕ)) (order : List ℕ) :
    ℕ → List ℤ → Option (List ℤ)
  | 0, sol => if (-1 : ℤ) ∈ sol then none else some sol
  | n + 1, sol =>
      if (-1 : ℤ) ∈ sol then
        repairLoop cost adjacency order n (repairPass cost adjacency order sol)
      else some sol

/-- C3 (code bug): the contiguity-repair loop does not terminate on every
input, and an unassigned super-region with no validly-labelled neighbor is
never surfaced as an unresolved-assignment result. With a single
super-region left at -1 and an empty region adjacency (an isolated region),
the scan has no candidates, the body writes -1 back unchanged — the pass is
the identity — and the `while -1 in solution` guard stays true after any
number of iterations, for every candidate-cost function: the loop runs
forever and produces nothing. -/
theorem C3_repair_nontermination :
    ∀ (cost : ℕ → ℤ → EF ℝ) (fuel : ℕ),
      repairPass cost [] [0] [(-1 : ℤ)] = [(-1 : ℤ)] ∧
      repairLoop cost [] [0] fuel [(-1 : ℤ)] = none := by
  intro cost fuel
  have hfix : repairPass cost [] [0] [(-1 : ℤ)] = [(-1 : ℤ)] := rfl
  refine ⟨hfix, ?_⟩
  induction fuel with
  | zero => rfl
  | succ n ih =>
      have hstep : repairLoop cost [] [0] (n + 1) [(-1 : ℤ)]
          = repairLoop cost [] [0] n [(-1 : ℤ)] := by
        show (if (-1 : ℤ) ∈ [(-1 : ℤ)] then
            repairLoop cost [] [0] n (repairPass cost [] [0] [(-1 : ℤ)])
          else some [(-1 : ℤ)]) = _
        rw [if_pos (by decide), hfix]
      rw [hstep, ih]

/-! ## Contiguity: the detection pass and the connectivity invariant
(src/explorations/2d_full_process.py, lines 100-122 and 125-167).
Connectivity is stated at super-region granularity over the region
adjacency graph (the `super_adjacency` RAG): a label's region set is one
connected component when any two of its regions are joined by a path of
adjacent regions all carrying that label.  The detection pass of lines
100-122 receives the connected components of a label's voxel mask from
`ndi.label`; the components enter the model as data (`comps`), constrained
by the partition hypotheses of the theorem. -/

/-- Undirected adjacency in the RAG edge list. -/
def adjacentR (adj : List (ℕ × ℕ)) (a b : ℕ) : Prop :=
  (a, b) ∈ adj ∨ (b, a) ∈ adj

/-- One step between two regions of the set `P`. -/
def stepIn (adj : List (ℕ × ℕ)) (P : ℕ → Prop) (a b : ℕ) : Prop :=
  P a ∧ P b ∧ adjacentR adj a b

/-- `P` is (at most) one connected component of the RAG: any two of its
members are joined by a path inside `P`. -/
def connectedIn (adj : List (ℕ × ℕ)) (P : ℕ → Prop) : Prop :=
  ∀ a b, P a → P b → Relation.ReflTransGen (stepIn adj P) a b

/-- The set of super-regions carrying label `L` in an assignment. -/
def labelSet (sol : List ℤ) (L : ℤ) : ℕ → Prop :=
  fun r => sol.getD r (-1) = L

/-- `solution[label_regions] = -1`
(src/explorations/2d_full_process.py line 121): every region holding `L`
is reset to the unassigned sentinel. -/
def clearLabel (sol : List ℤ) (L : ℤ) : List ℤ :=
  sol.map (fun x => if x = L then -1 else x)

/-- `solution[correct_vertexes] = label` (line 122): every listed region is
set to `L`. -/
def setAll (sol : List ℤ) (L : ℤ) (rs : List ℕ) : List ℤ :=
  rs.foldl (fun s r => s.set r L) sol

/-- The detection body for one label (lines 104-122): with a single
connected component the label is left alone; otherwise
`actual_region = argmin(costs[1:]) + 1` picks the cheapest component
(`costs` row 0 is the background of the component map, row `i + 1` is
component `i`), all of the label's regions are reset to -1 and the chosen
component's regions get the label back. -/
noncomputable def detectLabel (sol : List ℤ) (L : ℤ) (comps : List (List ℕ))
    (costs : List (EF ℝ)) : List ℤ :=
  if comps.length = 1 then sol
  else setAll (clearLabel sol L) L (comps.getD (npArgmin (costs.drop 1)) [])

section ContiguityLemmas

theorem adjacentR_symm {adj : List (ℕ × ℕ)} {a b : ℕ}
    (h : adjacentR adj a b) : adjacentR adj b a :=
  h.elim Or.inr Or.inl

theorem connectedIn_congr (adj : List (ℕ × ℕ)) {P Q : ℕ → Prop}
    (h : ∀ r, P r ↔ Q r) (hc : connectedIn adj P) : connectedIn adj Q := by
  intro a b ha hb
  exact Relation.ReflTransGen.mono
    (fun x y hxy => ⟨(h x).mp hxy.1, (h y).mp hxy.2.1, hxy.2.2⟩)
    (hc a b ((h a).mpr ha) ((h b).mpr hb))

theorem connectedIn_insert (adj : List (ℕ × ℕ)) (P : ℕ → Prop) (s nb : ℕ)
    (hc : connectedIn adj P) (hnb : P nb) (hadj : adjacentR adj s nb) :
    connectedIn adj (fun r => P r ∨ r = s) := by
  have hmono : ∀ x y, stepIn adj P x y → stepIn adj (fun r => P r ∨ r = s) x y :=
    fun x y h => ⟨Or.inl h.1, Or.inl h.2.1, h.2.2⟩
  intro a b ha hb
  rcases ha with ha | ha
  · rcases hb with hb | hb
    · exact Relation.ReflTransGen.mono hmono (hc a b ha hb)
    · subst hb
      exact Relation.ReflTransGen.tail
        (Relation.ReflTransGen.mono hmono (hc a nb ha hnb))
        ⟨Or.inl hnb, Or.inr rfl, adjacentR_symm hadj⟩
  · subst ha
    rcases hb with hb | hb
    · exact Relation.ReflTransGen.head ⟨Or.inr rfl, Or.inl hnb, hadj⟩
        (Relation.ReflTransGen.mono hmono (hc nb b hnb hb))
    · subst hb
      exact Relation.ReflTransGen.refl

theorem connectedIn_subsingleton (adj : List (ℕ × ℕ)) (P : ℕ → Prop)
    (h : ∀ a b, P a → P b → a = b) : connectedIn adj P :=
  fun a b ha hb => (h a b ha hb) ▸ Relation.ReflTransGen.refl

theorem getD_out {β : Type} (l : List β) (i : ℕ) (h : l.length ≤ i) (d : β) :
    l.getD i d = d := by
  induction l generalizing i with
  | nil => cases i <;> rfl
  | cons x t ih =>
      cases i with
      | zero => simp at h
      | succ m => exact ih m (by simpa using h)

theorem getD_default_irrel {β : Type} (l : List β) (i : ℕ) (h : i < l.length)
    (d₁ d₂ : β) : l.getD i d₁ = l.getD i d₂ := by
  induction l generalizing i with
  | nil => simp at h
  | cons x t ih =>
      cases i with
      | zero => rfl
      | succ m => exact ih m (by simpa using Nat.lt_of_succ_lt_succ h)

theorem set_out {β : Type} (l : List β) (i : ℕ) (h : l.length ≤ i) (a : β) :
    l.set i a = l := by
  induction l generalizing i with
  | nil => rfl
  | cons x t ih =>
      cases i with
      | zero => simp at h
      | succ m => simp only [List.set_cons_succ]; rw [ih m (by simpa using h)]

theorem getD_set_same (l : List ℤ) (s : ℕ) (v : ℤ) (hv : l.getD s (-1) = v) :
    ∀ r, (l.set s v).getD r (-1) = l.getD r (-1) := by
  intro r
  by_cases hs : s < l.length
  · by_cases hr : r = s
    · subst hr; rw [getD_set_self _ _ hs _ _, hv]
    · rw [getD_set_ne _ _ _ (fun hc => hr hc.symm) _ _]
  · rw [set_out l s (le_of_not_lt hs) v]

end ContiguityLemmas

section ContiguityLemmas2

theorem setAll_getD (L : ℤ) (rs : List ℕ) :
    ∀ (sol : List ℤ) (r : ℕ),
      (setAll sol L rs).getD r (-1)
        = if r ∈ rs ∧ r < sol.length then L else sol.getD r (-1) := by
  induction rs with
  | nil =>
      intro sol r
      rw [setAll]
      simp
  | cons a rest ih =>
      intro sol r
      rw [setAll, List.foldl_cons,
        show rest.foldl (fun s r => s.set r L) (sol.set a L)
          = setAll (sol.set a L) L rest from rfl, ih (sol.set a L) r]
      have hlen : (sol.set a L).length = sol.length := by simp
      by_cases hr : r < sol.length
      · by_cases hmem : r ∈ rest
        · rw [if_pos ⟨hmem, by rw [hlen]; exact hr⟩,
            if_pos ⟨List.mem_cons_of_mem a hmem, hr⟩]
        · rw [if_neg (fun h => hmem h.1)]
          by_cases ha : r = a
          · subst ha
            rw [getD_set_self _ _ hr _ _, if_pos ⟨List.mem_cons_self _ _, hr⟩]
          · rw [getD_set_ne _ _ _ (fun hc => ha hc.symm) _ _,
              if_neg (fun h => (List.mem_cons.mp h.1).elim ha hmem)]
      · rw [if_neg (fun h => hr (hlen ▸ h.2)), if_neg (fun h => hr h.2)]
        rw [getD_out _ _ (by rw [hlen]; exact le_of_not_lt hr) _,
          getD_out _ _ (le_of_not_lt hr) _]

theorem clearLabel_getD (sol : List ℤ) (L : ℤ) (hL : L ≠ -1) (r : ℕ) :
    (clearLabel sol L).getD r (-1)
      = if sol.getD r (-1) = L then -1 else sol.getD r (-1) := by
  rw [clearLabel]
  by_cases hr : r < sol.length
  · rw [getD_map_lt _ _ _ hr _ (-1)]
  · have h1 : sol.length ≤ r := le_of_not_lt hr
    rw [getD_out _ _ (by simpa using h1) _, getD_out _ _ h1 _,
      if_neg (fun hc => hL hc.symm)]

theorem clearLabel_length (sol : List ℤ) (L : ℤ) :
    (clearLabel sol L).length = sol.length := by
  rw [clearLabel]; simp

theorem repairFold_mem (cost : ℤ → EF ℝ) (cands : List ℤ) :
    ∀ st : ℤ × EF ℝ,
      (cands.foldl (repairStep cost) st).1 = st.1 ∨
      ((cands.foldl (repairStep cost) st).1 ∈ cands ∧
        (cands.foldl (repairStep cost) st).1 ≠ -1) := by
  induction cands with
  | nil => intro st; exact Or.inl rfl
  | cons p rest ih =>
      intro st
      rw [List.foldl_cons]
      rcases ih (repairStep cost st p) with h | ⟨h1, h2⟩
      · rw [h]
        by_cases hp1 : p = st.1
        · rw [repairStep, if_pos hp1]; exact Or.inl rfl
        · by_cases hp2 : p = -1
          · rw [repairStep, if_neg hp1, if_pos hp2]; exact Or.inl rfl
          · by_cases hp3 : EF.lt (cost p) st.2
            · rw [repairStep, if_neg hp1, if_neg hp2, if_pos hp3]
              exact Or.inr ⟨List.mem_cons_self p rest, hp2⟩
            · rw [repairStep, if_neg hp1, if_neg hp2, if_neg hp3]
              exact Or.inl rfl
      · exact Or.inr ⟨List.mem_cons_of_mem p h1, h2⟩

theorem neighborLabels_spec (adj : List (ℕ × ℕ)) (sol : List ℤ) (s : ℕ)
    (p : ℤ) (hp : p ∈ neighborLabels adj sol s) :
    ∃ nb, adjacentR adj s nb ∧ sol.getD nb 0 = p := by
  rw [neighborLabels, List.mem_dedup] at hp
  rcases List.mem_map.mp hp with ⟨nb, hnb, hval⟩
  rcases List.mem_filterMap.mp hnb with ⟨⟨a, b⟩, he, heq⟩
  dsimp only at heq
  by_cases h1 : a = s
  · rw [if_pos h1] at heq
    injection heq with heq2
    subst h1
    exact ⟨nb, Or.inl (heq2 ▸ he), hval⟩
  · rw [if_neg h1] at heq
    by_cases h2 : b = s
    · rw [if_pos h2] at heq
      injection heq with heq2
      subst h2
      exact ⟨nb, Or.inr (heq2 ▸ he), hval⟩
    · rw [if_neg h2] at heq
      exact absurd heq (by simp)

theorem npArgmin_min (l : List (EF ℝ)) (hne : l ≠ [])
    (hnn : ∀ v ∈ l, EF.isNan v = false) :
    npArgmin l < l.length ∧
    ∀ v ∈ l, ¬ EF.lt v (l.getD (npArgmin l) (EF.fin 0)) := by
  cases l with
  | nil => exact absurd rfl hne
  | cons v t =>
      have hfn : firstNanIdx (v :: t) = none := firstNanIdx_none_of_no_nan _ hnn
      have hdef : npArgmin (v :: t) = (npArgminGo t 1 (0, v)).1 := by
        rw [npArgmin.eq_def, hfn]
      have hgetD := npArgminGo_getD (v :: t) (EF.fin 0) t 1 (0, v) rfl
        (by simp) rfl
      have hmin := npArgminGo_min t 1 (0, v)
      rw [hdef]
      refine ⟨hgetD.1, ?_⟩
      intro w hw
      rw [hgetD.2]
      rcases List.mem_cons.mp hw with h | h
      · subst h
        rcases hmin.1 with he | hlt
        · rw [he]; exact EF.lt_irrefl _
        · exact EF.lt_asymm hlt
      · exact hmin.2 w h

theorem vals_ge_of_all (sol : List ℤ) (h : ∀ x ∈ sol, -1 ≤ x) :
    ∀ r : ℕ, -1 ≤ sol.getD r (-1) := by
  intro r
  induction sol generalizing r with
  | nil => cases r <;> exact le_refl _
  | cons x t ih =>
      cases r with
      | zero => exact h x (List.mem_cons_self x t)
      | succ m =>
          exact ih (fun y hy => h y (List.mem_cons_of_mem x hy)) m

end ContiguityLemmas2

section RepairInvariant

/-- One repair body preserves well-formed values (≥ -1) and per-label
connectivity: an accepted candidate is the label of an adjacent region, so
the label's set grows by a region adjacent to it; a region with no
accepted candidate keeps -1 and nothing changes. -/
theorem repairRegion_invariant (cost : ℕ → ℤ → EF ℝ) (adj : List (ℕ × ℕ))
    (sol : List ℤ) (s : ℕ)
    (hwf : ∀ e ∈ adj, e.1 < sol.length ∧ e.2 < sol.length)
    (hvals : ∀ r : ℕ, -1 ≤ sol.getD r (-1))
    (hconn : ∀ L : ℤ, 0 ≤ L → connectedIn adj (labelSet sol L)) :
    (repairRegion cost adj sol s).length = sol.length ∧
    (∀ r : ℕ, -1 ≤ (repairRegion cost adj sol s).getD r (-1)) ∧
    (∀ L : ℤ, 0 ≤ L → connectedIn adj (labelSet (repairRegion cost adj sol s) L)) := by
  rw [repairRegion]
  by_cases hguard : sol.getD s (-1) > -1
  · rw [if_pos hguard]
    exact ⟨rfl, hvals, hconn⟩
  · rw [if_neg hguard]
    have hs0 : sol.getD s (-1) = -1 := by have := hvals s; omega
    have hfold := repairFold_mem (cost s) (neighborLabels adj sol s)
      (sol.getD s (-1), EF.pinf)
    set v := ((neighborLabels adj sol s).foldl (repairStep (cost s))
      (sol.getD s (-1), EF.pinf)).1 with hv
    rcases hfold with hcase | ⟨hmem, hne⟩
    · have hcase' : sol.getD s (-1) = v := hcase.symm
      have hsame := getD_set_same sol s v hcase'
      refine ⟨by simp, fun r => by rw [hsame r]; exact hvals r, fun L hL => ?_⟩
      exact connectedIn_congr adj
        (fun r => by simp only [labelSet]; rw [hsame r]) (hconn L hL)
    · rcases neighborLabels_spec adj sol s v hmem with ⟨nb, hadjs, hnbval⟩
      have hnblen : nb < sol.length := by
        rcases hadjs with h | h
        · exact (hwf _ h).2
        · exact (hwf _ h).1
      have hslen : s < sol.length := by
        rcases hadjs with h | h
        · exact (hwf _ h).1
        · exact (hwf _ h).2
      have hnbval' : sol.getD nb (-1) = v := by
        rw [← hnbval]
        exact getD_default_irrel sol nb hnblen _ _
      have hvpos : 0 ≤ v := by
        have h1 := hvals nb
        rw [hnbval'] at h1
        omega
      refine ⟨by simp, ?_, ?_⟩
      · intro r
        by_cases hr : r = s
        · subst hr
          rw [getD_set_self _ _ hslen _ _]
          omega
        · rw [getD_set_ne _ _ _ (fun hc => hr hc.symm) _ _]
          exact hvals r
      · intro L hL
        by_cases hLv : L = v
        · subst hLv
          have hnew : ∀ r, labelSet (sol.set s v) v r ↔ (labelSet sol v r ∨ r = s) := by
            intro r
            by_cases hr : r = s
            · subst hr
              simp only [labelSet]
              rw [getD_set_self _ _ hslen _ _]
              simp
            · simp only [labelSet]
              rw [getD_set_ne _ _ _ (fun hc => hr hc.symm) _ _]
              exact ⟨Or.inl, fun h => h.elim id (fun h' => absurd h' hr)⟩
          exact connectedIn_congr adj (fun r => (hnew r).symm)
            (connectedIn_insert adj (labelSet sol v) s nb (hconn v hL)
              hnbval' hadjs)
        · have hsameL : ∀ r, labelSet sol L r ↔ labelSet (sol.set s v) L r := by
            intro r
            by_cases hr : r = s
            · subst hr
              simp only [labelSet]
              rw [getD_set_self _ _ hslen _ _, hs0]
              exact ⟨fun h => by omega, fun h => absurd h.symm hLv⟩
            · simp only [labelSet]
              rw [getD_set_ne _ _ _ (fun hc => hr hc.symm) _ _]
          exact connectedIn_congr adj hsameL (hconn L hL)

/-- One full pass over the processing order preserves the invariant. -/
theorem repairPass_invariant (cost : ℕ → ℤ → EF ℝ) (adj : List (ℕ × ℕ))
    (order : List ℕ) :
    ∀ sol : List ℤ,
      (∀ e ∈ adj, e.1 < sol.length ∧ e.2 < sol.length) →
      (∀ r : ℕ, -1 ≤ sol.getD r (-1)) →
      (∀ L : ℤ, 0 ≤ L → connectedIn adj (labelSet sol L)) →
      (repairPass cost adj order sol).length = sol.length ∧
      (∀ r : ℕ, -1 ≤ (repairPass cost adj order sol).getD r (-1)) ∧
      (∀ L : ℤ, 0 ≤ L → connectedIn adj (labelSet (repairPass cost adj order sol) L)) := by
  induction order with
  | nil => intro sol h1 h2 h3; exact ⟨rfl, h2, h3⟩
  | cons s rest ih =>
      intro sol h1 h2 h3
      have hr := repairRegion_invariant cost adj sol s h1 h2 h3
      have h1' : ∀ e ∈ adj, e.1 < (repairRegion cost adj sol s).length ∧
          e.2 < (repairRegion cost adj sol s).length := by
        intro e he
        rw [hr.1]
        exact h1 e he
      have hrest := ih (repairRegion cost adj sol s) h1' hr.2.1 hr.2.2
      exact ⟨hrest.1.trans hr.1, hrest.2.1, hrest.2.2⟩

/-- When the repair while-loop exits, no region is unassigned and every
label's region set is one connected component of the RAG (or empty). -/
theorem repairLoop_invariant (cost : ℕ → ℤ → EF ℝ) (adj : List (ℕ × ℕ))
    (order : List ℕ) :
    ∀ (fuel : ℕ) (sol sol' : List ℤ),
      (∀ e ∈ adj, e.1 < sol.length ∧ e.2 < sol.length) →
      (∀ r : ℕ, -1 ≤ sol.getD r (-1)) →
      (∀ L : ℤ, 0 ≤ L → connectedIn adj (labelSet sol L)) →
      repairLoop cost adj order fuel sol = some sol' →
      ((-1 : ℤ) ∉ sol') ∧
      ∀ L : ℤ, 0 ≤ L → connectedIn adj (labelSet sol' L) := by
  intro fuel
  induction fuel with
  | zero =>
      intro sol sol' h1 h2 h3 hloop
      by_cases hmem : (-1 : ℤ) ∈ sol
      · rw [show repairLoop cost adj order 0 sol
            = if (-1 : ℤ) ∈ sol then none else some sol from rfl,
          if_pos hmem] at hloop
        exact absurd hloop (by simp)
      · rw [show repairLoop cost adj order 0 sol
            = if (-1 : ℤ) ∈ sol then none else some sol from rfl,
          if_neg hmem] at hloop
        injection hloop with hloop
        subst hloop
        exact ⟨hmem, h3⟩
  | succ n ih =>
      intro sol sol' h1 h2 h3 hloop
      by_cases hmem : (-1 : ℤ) ∈ sol
      · rw [show repairLoop cost adj order (n + 1) sol
            = if (-1 : ℤ) ∈ sol then
                repairLoop cost adj order n (repairPass cost adj order sol)
              else some sol from rfl,
          if_pos hmem] at hloop
        have hp := repairPass_invariant cost adj order sol h1 h2 h3
        exact ih (repairPass cost adj order sol) sol'
          (fun e he => by rw [hp.1]; exact h1 e he) hp.2.1 hp.2.2 hloop
      · rw [show repairLoop cost adj order (n + 1) sol
            = if (-1 : ℤ) ∈ sol then
                repairLoop cost adj order n (repairPass cost adj order sol)
              else some sol from rfl,
          if_neg hmem] at hloop
        injection hloop with hloop
        subst hloop
        exact ⟨hmem, h3⟩

end RepairInvariant

/-- C2: (a) when the contiguity-repair loop converges (the `while -1 in
solution` guard goes false within the fuel), no super-region is left
unassigned and every label's region set is one connected component of the
region adjacency graph (or empty) — given that the loop starts from a
well-formed state in which every label's set is already one component
(which is what the detection pass establishes) and the adjacency list is
in range; this holds for every candidate-cost function and processing
order, because a region only ever adopts the label of an adjacent region.
(b) The detection pass for a label with several connected components keeps
the label exactly on the arg-min-cost component: every region of the
chosen component ends with the label, every region of every other
component ends at -1, regions of other labels are untouched, and no
component has a cost strictly below the chosen one's (costs row `i + 1`
belongs to component `i`; no cost is NaN). -/
theorem C2_contiguity_connectivity
    (cost : ℕ → ℤ → EF ℝ) (adj : List (ℕ × ℕ)) (order : List ℕ) (fuel : ℕ)
    (sol₀ sol' : List ℤ)
    (hwf : ∀ e ∈ adj, e.1 < sol₀.length ∧ e.2 < sol₀.length)
    (hvals : ∀ r : ℕ, -1 ≤ sol₀.getD r (-1))
    (hconn : ∀ L : ℤ, 0 ≤ L → connectedIn adj (labelSet sol₀ L))
    (hloop : repairLoop cost adj order fuel sol₀ = some sol')
    (dsol : List ℤ) (dL : ℤ) (comps : List (List ℕ)) (costs : List (EF ℝ))
    (hdL : 0 ≤ dL) (hc1 : 2 ≤ comps.length)
    (hc2 : costs.length = comps.length + 1)
    (hnn : ∀ v ∈ costs.drop 1, EF.isNan v = false)
    (hpart : ∀ i, i < comps.length → ∀ r ∈ comps.getD i [],
      dsol.getD r (-1) = dL ∧ r < dsol.length)
    (hdisj : ∀ i j, i < comps.length → j < comps.length → i ≠ j →
      ∀ r ∈ comps.getD i [], r ∉ comps.getD j []) :
    (((-1 : ℤ) ∉ sol') ∧
      ∀ L : ℤ, 0 ≤ L → connectedIn adj (labelSet sol' L)) ∧
    (npArgmin (costs.drop 1) < comps.length ∧
      (∀ r ∈ comps.getD (npArgmin (costs.drop 1)) [],
        (detectLabel dsol dL comps costs).getD r (-1) = dL) ∧
      (∀ i, i < comps.length → i ≠ npArgmin (costs.drop 1) →
        ∀ r ∈ comps.getD i [],
          (detectLabel dsol dL comps costs).getD r (-1) = -1) ∧
      (∀ r : ℕ, dsol.getD r (-1) ≠ dL →
        (detectLabel dsol dL comps costs).getD r (-1) = dsol.getD r (-1)) ∧
      (∀ i, i < comps.length →
        ¬ EF.lt ((costs.drop 1).getD i (EF.fin 0))
          ((costs.drop 1).getD (npArgmin (costs.drop 1)) (EF.fin 0)))) := by
  refine ⟨repairLoop_invariant cost adj order fuel sol₀ sol' hwf hvals hconn hloop, ?_⟩
  have hlen1 : (costs.drop 1).length = comps.length := by
    rw [List.length_drop, hc2]
    omega
  have hne : costs.drop 1 ≠ [] := by
    intro hc
    rw [hc] at hlen1
    simp at hlen1
    omega
  have hmin := npArgmin_min (costs.drop 1) hne hnn
  have hAlt : npArgmin (costs.drop 1) < comps.length := by
    rw [← hlen1]
    exact hmin.1
  have hdet : detectLabel dsol dL comps costs
      = setAll (clearLabel dsol dL) dL
          (comps.getD (npArgmin (costs.drop 1)) []) := by
    rw [detectLabel, if_neg (by omega)]
  refine ⟨hAlt, ?_, ?_, ?_, ?_⟩
  · intro r hr
    rw [hdet, setAll_getD,
      if_pos ⟨hr, by rw [clearLabel_length]; exact (hpart _ hAlt r hr).2⟩]
  · intro i hi hiA r hr
    have hnotin : r ∉ comps.getD (npArgmin (costs.drop 1)) [] :=
      hdisj i _ hi hAlt hiA r hr
    rw [hdet, setAll_getD, if_neg (fun h => hnotin h.1),
      clearLabel_getD dsol dL (by omega) r, if_pos (hpart i hi r hr).1]
  · intro r hrL
    have hnotin : r ∉ comps.getD (npArgmin (costs.drop 1)) [] :=
      fun h => hrL (hpart _ hAlt r h).1
    rw [hdet, setAll_getD, if_neg (fun h => hnotin h.1),
      clearLabel_getD dsol dL (by omega) r, if_neg hrL]
  · intro i hi
    exact hmin.2 _ (getD_mem_of_lt _ i (by rw [hlen1]; exact hi) _)

/-- Witness for C2: two super-regions joined by one RAG edge; region 0
starts unassigned, region 1 holds label 0; within fuel 2 the loop converges
to `[0, 0]` with no -1 left.  Detection side: two components `[0]` and
`[1]` of label 0 in the two-region assignment `[0, 0]`, component costs
`+inf` and `0` (rows 1 and 2 of `costs`): the cheaper component `[1]`
keeps label 0 and component `[0]` is reset to -1. -/
theorem C2_contiguity_connectivity_witness :
    ((-1 : ℤ) ∉ ([0, 0] : List ℤ)) ∧
    (detectLabel [0, 0] 0 [[0], [1]] [EF.fin 0, EF.pinf, EF.fin 0]).getD 1 (-1)
      = 0 ∧
    (detectLabel [0, 0] 0 [[0], [1]] [EF.fin 0, EF.pinf, EF.fin 0]).getD 0 (-1)
      = -1 := by
  have h := C2_contiguity_connectivity (fun _ _ => EF.ninf) [(0, 1)] [0] 2
    [-1, 0] [0, 0]
    (by decide)
    (vals_ge_of_all [-1, 0] (by decide))
    (by
      intro L hL
      apply connectedIn_subsingleton
      intro a b ha hb
      have key : ∀ c : ℕ, labelSet [-1, 0] L c → c = 1 := by
        intro c hc
        simp only [labelSet] at hc
        match c with
        | 0 => simp at hc; omega
        | 1 => rfl
        | (n + 2) => simp at hc; omega
      rw [key a ha, key b hb])
    rfl
    [0, 0] 0 [[0], [1]] [EF.fin 0, EF.pinf, EF.fin 0]
    (by decide) (by decide) rfl
    (by
      intro v hv
      rcases List.mem_cons.mp hv with rfl | hv
      · rfl
      rcases List.mem_cons.mp hv with rfl | hv
      · rfl
      cases hv)
    (by
      intro i hi
      have hi2 : i < 2 := by simpa using hi
      interval_cases i <;> decide)
    (by
      intro i j hi hj hne
      have hi2 : i < 2 := by simpa using hi
      have hj2 : j < 2 := by simpa using hj
      interval_cases i <;> interval_cases j <;>
        first
          | exact absurd rfl hne
          | decide)
  refine ⟨h.1.1, ?_, ?_⟩
  · exact h.2.2.1 1 (by show (1 : ℕ) ∈ ([1] : List ℕ); decide)
  · exact h.2.2.2.1 0 (by decide) (by show (0 : ℕ) ≠ 1; decide) 0 (by decide)

end STAP
